import Mathlib

/-!
# Verification of the fs-verity data-verification engine (fs/verity/verify.c)

This file gives a shallow embedding of the Merkle-tree verification engine in
`fs/verity/verify.c` and proves properties of it.

Modelling conventions:
* Byte strings are `List Nat`.  Machine integers are `Nat`; the geometry
  construction (out of scope here) guarantees 64-bit node-index arithmetic
  does not overflow, so no wrap-around is modelled.
* `x & (2^k - 1)` is written `x % 2^k`, `round_down(x, 2^k)` is `x - x % 2^k`,
  and shifts are `>>>`/`<<<`; all the C masks involved are powers of two.
* `memcmp(a, b, n)` is modelled as `memcmp_eq a b n : Option Bool`; it is
  `none` when `n` exceeds either buffer (an out-of-bounds read, undefined
  behavior in C), otherwise `some` of the equality of the first `n` bytes.
* The caller-supplied capabilities (`read_merkle_tree_page`, the hash
  function) are fields of `VerityEnv`; an I/O or hashing failure is `none`.
* The shared mutable state (the `hash_block_verified` bitmap and the
  per-page `PG_checked` flags) is `VerityState` and is threaded explicitly.
* A `Trace` records the observable events of a run (tree-page fetches with
  their readahead hint, `is_hash_block_verified` queries, page map/unmap
  events, hash invocations on hash blocks, data-page map/unmap counts, and
  the per-data-block verification results), so that theorems can speak about
  the work performed and the resources held.
-/

namespace Fsverity

/-- Byte strings. -/
abbrev Bytes := List Nat

/-- The relevant fields of `struct merkle_tree_params`.  `block_size`,
`digest_size`, the arity and `blocks_per_page` are powers of two stored in
log2 form, exactly as in the source. -/
structure MerkleTreeParams where
  log_blocksize : Nat
  log_arity : Nat
  log_digestsize : Nat
  log_blocks_per_page : Nat
  num_levels : Nat
  level_start : List Nat
  tree_pages : Nat
  supports_multibuffer : Bool
deriving Repr, DecidableEq

/-- Merkle tree block size in bytes. -/
def MerkleTreeParams.block_size (p : MerkleTreeParams) : Nat := 2 ^ p.log_blocksize

/-- Digest size in bytes. -/
def MerkleTreeParams.digest_size (p : MerkleTreeParams) : Nat := 2 ^ p.log_digestsize

/-- Merkle tree blocks per cache page. -/
def MerkleTreeParams.blocks_per_page (p : MerkleTreeParams) : Nat := 2 ^ p.log_blocks_per_page

/-- Cache page size in bytes (`PAGE_SIZE = block_size * blocks_per_page`). -/
def MerkleTreeParams.page_size (p : MerkleTreeParams) : Nat := p.block_size * p.blocks_per_page

/-- The immutable per-file data consumed by the engine: the tree parameters
and trust anchors from `struct fsverity_info`, the inode size, and the
caller-supplied capabilities.  `has_bitmap` tells whether
`vi->hash_block_verified` was allocated (block size differing from page
size); `read_merkle_tree_page` returns the bytes of a tree cache page or
`none` for an I/O error; `hash_block` returns a digest or `none` when the
hash primitive fails. -/
structure VerityEnv where
  tree_params : MerkleTreeParams
  root_hash : Bytes
  zero_block_hash : Bytes
  has_bitmap : Bool
  i_size : Nat
  read_merkle_tree_page : Nat → Option Bytes
  hash_block : Bytes → Option Bytes

/-- The mutable shared verification state: the `hash_block_verified` bitmap
(indexed by hash-block index) and the per-tree-page `PG_checked` flags. -/
structure VerityState where
  bitmap : Nat → Bool
  checked : Nat → Bool

/-- C `memcmp(a, b, n) == 0`, as an `Option`: `none` when `n` reaches past
the end of either buffer (an out-of-bounds read, undefined behavior). -/
def memcmp_eq (a b : Bytes) (n : Nat) : Option Bool :=
  if n ≤ a.length ∧ n ≤ b.length then some (decide (a.take n = b.take n)) else none

/-- The kernel `round_down(x, n)` for `n` a power of two (`x & ~(n-1)`). -/
def round_down (x n : Nat) : Nat := x - x % n

/-- Pointwise `clear_bit`. -/
def clear_bit (i : Nat) (f : Nat → Bool) : Nat → Bool := fun j => if j = i then false else f j

/-- Pointwise `set_bit` (also used for `SetPageChecked`). -/
def set_bit (i : Nat) (f : Nat → Bool) : Nat → Bool := fun j => if j = i then true else f j

/-- Transcription of `is_hash_block_verified(vi, hpage, hblock_idx)`.
`hpage_idx` identifies the page `hpage`; the result pairs the returned
boolean with the updated state.  In single-block-per-page mode
(`has_bitmap = false`) the page's `PG_checked` flag is returned directly.
In bitmap mode, `PG_checked` serves as the page's not-freshly-instantiated
indicator: on a fresh page all bits for the page's blocks are cleared, the
page is marked checked, and `false` is returned; otherwise the stored bit
for `hblock_idx` is returned. -/
def is_hash_block_verified (env : VerityEnv) (st : VerityState)
    (hpage_idx : Nat) (hblock_idx : Nat) : Bool × VerityState :=
  if !env.has_bitmap then
    (st.checked hpage_idx, st)
  else if st.checked hpage_idx then
    (st.bitmap hblock_idx, st)
  else
    let bpp := env.tree_params.blocks_per_page
    let base := round_down hblock_idx bpp
    let bitmap' := (List.range bpp).foldl (fun f i => clear_bit (base + i) f) st.bitmap
    (false, { bitmap := bitmap', checked := set_bit hpage_idx st.checked })

/-- One entry of the `hblocks[]` array of `verify_data_block`: the page
holding the hash block, the mapped hash-block contents, the hash block's
index in the tree, and the byte offset of the wanted hash in the block. -/
structure HashBlockLoc where
  page : Nat
  addr : Bytes
  index : Nat
  hoffset : Nat
deriving Repr, DecidableEq

/-- The hash stored in a traversed hash block for its child
(`memcpy(_want_hash, haddr + hoffset, hsize)`). -/
def stored_hash (env : VerityEnv) (loc : HashBlockLoc) : Bytes :=
  (loc.addr.drop loc.hoffset).take env.tree_params.digest_size

/-- Observable events of a run. -/
structure Trace where
  fetches : List (Nat × Nat × Nat) := []
  queries : List (Nat × Bool) := []
  acq : List Nat := []
  rel : List Nat := []
  hashes : Nat := 0
  data_maps : Nat := 0
  data_unmaps : Nat := 0
  verified : List (Nat × Bool) := []
deriving Repr, DecidableEq

/-- Result of the ascent loop of `verify_data_block`: an I/O error carrying
the locators retained so far (to be released by the error path), or a stop
with the initial expected hash, the retained locator stack (innermost level
last), and the level at which the ascent stopped (`num_levels` when the
root was reached, in which case the expected hash is the root hash). -/
inductive AscentResult where
  | ioerr (stack : List HashBlockLoc)
  | stopped (want : Bytes) (stack : List HashBlockLoc) (stop : Nat)
deriving Repr, DecidableEq

/-- One ascent iteration's hash block index in the tree overall
(`hblock_idx = params->level_start[level] + next_hidx`). -/
def step_hblock_idx (env : VerityEnv) (hidx level : Nat) : Nat :=
  env.tree_params.level_start.getD level 0 + (hidx >>> env.tree_params.log_arity)

/-- One ascent iteration's hash page index
(`hpage_idx = hblock_idx >> params->log_blocks_per_page`). -/
def step_hpage_idx (env : VerityEnv) (hidx level : Nat) : Nat :=
  step_hblock_idx env hidx level >>> env.tree_params.log_blocks_per_page

/-- One ascent iteration's hash block offset within its page
(`(hblock_idx << log_blocksize) & ~PAGE_MASK`). -/
def step_hblock_off (env : VerityEnv) (hidx level : Nat) : Nat :=
  (step_hblock_idx env hidx level <<< env.tree_params.log_blocksize) % env.tree_params.page_size

/-- One ascent iteration's wanted-hash offset within the hash block
(`(hidx << log_digestsize) & (block_size - 1)`). -/
def step_hoffset (env : VerityEnv) (hidx : Nat) : Nat :=
  (hidx <<< env.tree_params.log_digestsize) % env.tree_params.block_size

/-- One ascent iteration's readahead hint
(`level == 0 ? min(max_ra_pages, tree_pages - hpage_idx) : 0`). -/
def step_ra (env : VerityEnv) (mra hidx level : Nat) : Nat :=
  if level = 0 then min mra (env.tree_params.tree_pages - step_hpage_idx env hidx level) else 0

/-- One ascent iteration's mapped hash block contents within the fetched
page (`kmap_local_page(hpage) + hblock_offset_in_page`, read as one
block). -/
def step_haddr (env : VerityEnv) (pg : Bytes) (hidx level : Nat) : Bytes :=
  (pg.drop (step_hblock_off env hidx level)).take env.tree_params.block_size

/-- The locator (`hblocks[level]`) saved by one ascent iteration. -/
def step_loc (env : VerityEnv) (pg : Bytes) (hidx level : Nat) : HashBlockLoc :=
  ⟨step_hpage_idx env hidx level, step_haddr env pg hidx level,
   step_hblock_idx env hidx level, step_hoffset env hidx⟩

/-- Transcription of the ascent loop (`for (level = 0; level < num_levels;
level++) ...`) of `verify_data_block`, together with the fall-through
assignment `want_hash = vi->root_hash` when the root is reached.
`remaining` is `num_levels - level`; `hidx` is the running index of the
previous level's block within that level.  Each iteration computes the hash
block's index, page and offsets (the `step_` definitions above), fetches
the page with the level-0 readahead hint, maps the hash block and consults
`is_hash_block_verified`; a verified block stops the ascent with its stored
child hash (releasing the page), an unverified one is pushed on the
locator stack. -/
def ascend (env : VerityEnv) (max_ra_pages : Nat) :
    Nat → Nat → Nat → List HashBlockLoc → VerityState → Trace →
    AscentResult × VerityState × Trace
  | _, 0, _, stack, st, tr => (.stopped env.root_hash stack env.tree_params.num_levels, st, tr)
  | hidx, r + 1, level, stack, st, tr =>
    match env.read_merkle_tree_page (step_hpage_idx env hidx level) with
    | none =>
      (.ioerr stack, st,
       { tr with fetches := tr.fetches ++
           [(level, step_hpage_idx env hidx level, step_ra env max_ra_pages hidx level)] })
    | some pg =>
      let res := is_hash_block_verified env st (step_hpage_idx env hidx level)
        (step_hblock_idx env hidx level)
      let tr2 := { tr with
        fetches := tr.fetches ++
          [(level, step_hpage_idx env hidx level, step_ra env max_ra_pages hidx level)],
        acq := tr.acq ++ [step_hpage_idx env hidx level],
        queries := tr.queries ++ [(level, res.1)] }
      if res.1 then
        (.stopped (stored_hash env (step_loc env pg hidx level)) stack level, res.2,
          { tr2 with rel := tr2.rel ++ [step_hpage_idx env hidx level] })
      else
        ascend env max_ra_pages (hidx >>> env.tree_params.log_arity) r (level + 1)
          (step_loc env pg hidx level :: stack) res.2 tr2

/-- The error path of `verify_data_block` (label `error:`): unmap and
release every still-retained locator, top level first. -/
def release_all (stack : List HashBlockLoc) (tr : Trace) : Trace :=
  { tr with rel := tr.rel ++ stack.map (·.page) }

/-- Marking a hash block verified during descent: `set_bit` in the bitmap,
or `SetPageChecked` on the page in single-block-per-page mode. -/
def mark_verified (env : VerityEnv) (st : VerityState) (loc : HashBlockLoc) : VerityState :=
  if env.has_bitmap then { st with bitmap := set_bit loc.index st.bitmap }
  else { st with checked := set_bit loc.page st.checked }

/-- Result of the descent loop. -/
inductive DescentResult where
  | ok (want : Bytes)
  | corrupted (level : Int)
  | ioerr
  | oob
deriving Repr, DecidableEq

/-- Transcription of the descent loop (`for (; level > 0; level--) ...`) of
`verify_data_block`.  The stack holds the retained locators with the
topmost level first, so the C loop counter `level` equals the length of the
remaining stack and the reported corrupted level is `level - 1`.  Each step
hashes the node's full contents, compares with the expected hash (mismatch:
corrupted, releasing everything still retained; hash failure: error,
likewise), marks the node verified, takes the node's stored child hash as
the new expected value and releases the node's page. -/
def descend (env : VerityEnv) :
    List HashBlockLoc → Bytes → VerityState → Trace →
    DescentResult × VerityState × Trace
  | [], want, st, tr => (.ok want, st, tr)
  | loc :: rest, want, st, tr =>
    let tr := { tr with hashes := tr.hashes + 1 }
    match env.hash_block (loc.addr.take env.tree_params.block_size) with
    | none => (.ioerr, st, release_all (loc :: rest) tr)
    | some real_hblock_hash =>
      match memcmp_eq want real_hblock_hash env.tree_params.digest_size with
      | none => (.oob, st, release_all (loc :: rest) tr)
      | some same =>
        if !same then
          (.corrupted ((loc :: rest).length - 1 : Int), st, release_all (loc :: rest) tr)
        else
          descend env rest (stored_hash env loc) (mark_verified env st loc)
            { tr with rel := tr.rel ++ [loc.page] }

/-- Possible outcomes of `verify_data_block`.  The C function returns a
boolean; the outcome keeps the level reported in the corruption message
(`level - 1`; `-1` denotes the data/leaf level) and distinguishes an
out-of-bounds `memcmp` (undefined behavior) from a regular failure. -/
inductive VerifyOutcome where
  | authentic
  | corrupted (level : Int)
  | ioerror
  | oob
deriving Repr, DecidableEq

/-- The tail of `verify_data_block` after the ascent: run the descent and
then compare the final expected hash against the data block's digest
(`memcmp(want_hash, real_dblock_hash, hsize)`). -/
def verify_tail (env : VerityEnv) (want : Bytes) (stack : List HashBlockLoc)
    (real_dblock_hash : Bytes) (st : VerityState) (tr : Trace) :
    VerifyOutcome × VerityState × Trace :=
  match descend env stack want st tr with
  | (.ok w, st1, tr1) =>
    match memcmp_eq w real_dblock_hash env.tree_params.digest_size with
    | none => (.oob, st1, tr1)
    | some same => if same then (.authentic, st1, tr1) else (.corrupted (-1), st1, tr1)
  | (.corrupted l, st1, tr1) => (.corrupted l, st1, tr1)
  | (.ioerr, st1, tr1) => (.ioerror, st1, tr1)
  | (.oob, st1, tr1) => (.oob, st1, tr1)

/-- Transcription of `verify_data_block(inode, vi, real_dblock_hash,
data_pos, max_ra_pages)`.  A block at or past `i_size` is compared against
`zero_block_hash` with `memcmp(vi->zero_block_hash, real_dblock_hash,
params->block_size)` — note the source passes the full block size, not the
digest size, as the length.  Otherwise the tree is ascended from
`hidx = data_pos >> log_blocksize` and the retained path is verified by
descent. -/
def verify_data_block (env : VerityEnv) (st : VerityState)
    (real_dblock_hash : Bytes) (data_pos : Nat) (max_ra_pages : Nat) :
    VerifyOutcome × VerityState × Trace :=
  let p := env.tree_params
  if env.i_size ≤ data_pos then
    match memcmp_eq env.zero_block_hash real_dblock_hash p.block_size with
    | none => (.oob, st, {})
    | some same => if same then (.authentic, st, {}) else (.corrupted (-1), st, {})
  else
    match ascend env max_ra_pages (data_pos >>> p.log_blocksize) p.num_levels 0 [] st {} with
    | (.ioerr stack, st1, tr1) => (.ioerror, st1, release_all stack tr1)
    | (.stopped want stack _, st1, tr1) => verify_tail env want stack real_dblock_hash st1 tr1

/-- The running `hidx` of the ascent at a given level: the initial
`hidx = data_pos >> log_blocksize` shifted right by `log_arity` once per
level climbed. -/
def hidx_at (p : MerkleTreeParams) (hidx0 level : Nat) : Nat :=
  hidx0 >>> (level * p.log_arity)

/-- The tree-wide index of the hash block visited at a given level
(`level_start[level] + next_hidx`). -/
def hblock_idx_at (env : VerityEnv) (hidx0 level : Nat) : Nat :=
  step_hblock_idx env (hidx_at env.tree_params hidx0 level) level

/-- The tree page holding the hash block visited at a given level. -/
def hpage_idx_at (env : VerityEnv) (hidx0 level : Nat) : Nat :=
  step_hpage_idx env (hidx_at env.tree_params hidx0 level) level

/-- The offset of the wanted hash within the hash block at a given level. -/
def hoffset_at (env : VerityEnv) (hidx0 level : Nat) : Nat :=
  step_hoffset env (hidx_at env.tree_params hidx0 level)

/-- The mapped contents of the hash block visited at a given level (empty
when the page read fails). -/
def haddr_at (env : VerityEnv) (hidx0 level : Nat) : Bytes :=
  match env.read_merkle_tree_page (hpage_idx_at env hidx0 level) with
  | none => []
  | some pg => step_haddr env pg (hidx_at env.tree_params hidx0 level) level

/-- The locator the ascent builds for a given level. -/
def loc_at (env : VerityEnv) (hidx0 level : Nat) : HashBlockLoc :=
  ⟨hpage_idx_at env hidx0 level, haddr_at env hidx0 level,
   hblock_idx_at env hidx0 level, hoffset_at env hidx0 level⟩

/-- The child hash stored in the hash block visited at a given level. -/
def stored_child_hash_at (env : VerityEnv) (hidx0 level : Nat) : Bytes :=
  ((haddr_at env hidx0 level).drop (hoffset_at env hidx0 level)).take
    env.tree_params.digest_size

/-- A data page as seen by `fsverity_add_data_blocks`: its page-cache index,
its mapped bytes, and its `PG_locked` / `PG_uptodate` flags. -/
structure DataPage where
  index : Nat
  bytes : Bytes
  locked : Bool
  uptodate : Bool
deriving Repr, DecidableEq

/-- The per-I/O-unit verification context (`struct
fsverity_verification_context`) together with the threaded shared state and
the run's trace.  `pending` holds the mapped bytes and position of a data
block deferred for multibuffer pairing. -/
structure BatchState where
  st : VerityState
  pending : Option (Bytes × Nat)
  max_ra_pages : Nat
  tr : Trace

/-- Concatenation of traces (a later run's events appended to an earlier
run's). -/
def Trace.append (a b : Trace) : Trace :=
  { fetches := a.fetches ++ b.fetches
    queries := a.queries ++ b.queries
    acq := a.acq ++ b.acq
    rel := a.rel ++ b.rel
    hashes := a.hashes + b.hashes
    data_maps := a.data_maps + b.data_maps
    data_unmaps := a.data_unmaps + b.data_unmaps
    verified := a.verified ++ b.verified }

/-- Adding data-page map/unmap events to a trace. -/
def Trace.bump_data (tr : Trace) (m u : Nat) : Trace :=
  { tr with data_maps := tr.data_maps + m, data_unmaps := tr.data_unmaps + u }

theorem Trace.bump_data_data_maps (tr : Trace) (m u : Nat) :
    (tr.bump_data m u).data_maps = tr.data_maps + m := rfl

theorem Trace.bump_data_data_unmaps (tr : Trace) (m u : Nat) :
    (tr.bump_data m u).data_unmaps = tr.data_unmaps + u := rfl

theorem Trace.bump_data_acq (tr : Trace) (m u : Nat) :
    (tr.bump_data m u).acq = tr.acq := rfl

theorem Trace.bump_data_rel (tr : Trace) (m u : Nat) :
    (tr.bump_data m u).rel = tr.rel := rfl

theorem Trace.bump_data_verified (tr : Trace) (m u : Nat) :
    (tr.bump_data m u).verified = tr.verified := rfl

/-- A batch-level call of `verify_data_block`: runs it on the shared state,
merges the call's trace, records the block's boolean result in the
`verified` log, and returns the boolean. -/
def batch_verify_block (env : VerityEnv) (bs : BatchState) (h : Bytes) (pos : Nat) :
    Bool × BatchState :=
  let r := verify_data_block env bs.st h pos bs.max_ra_pages
  let ok := decide (r.1 = .authentic)
  (ok, { bs with st := r.2.1,
                 tr := { bs.tr.append r.2.2 with
                           verified := (bs.tr.append r.2.2).verified ++ [(pos, ok)] } })

/-- Modelled from the spec: `fsverity_hash_2_blocks` is defined outside this
repository's sources (`src/` holds only its caller); per the spec the
combined operation produces the "two independent digests" of the two
blocks, so it is modelled as the pair of single-block hashes, failing iff
either fails. -/
def fsverity_hash_2_blocks (env : VerityEnv) (d1 d2 : Bytes) : Option (Bytes × Bytes) :=
  match env.hash_block (d1.take env.tree_params.block_size),
        env.hash_block (d2.take env.tree_params.block_size) with
  | some h1, some h2 => some (h1, h2)
  | _, _ => none

/-- Transcription of the `do { ... } while (len)` loop of
`fsverity_add_data_blocks`, with the loop count `len / block_size` as fuel
(the entry checks guarantee `len` is a positive multiple of `block_size`).
Each iteration maps the data page; note that the source hashes from
`kmap_local_page(data_page)` without adding the block offset, so the
mapped bytes passed to the hash are the start of the page in every
iteration.  In multibuffer mode a block is stashed as pending when none is
pending, otherwise the pending and current blocks are hashed together and
verified in order; without multibuffer each block is hashed and verified
by itself.  Any hash failure or failed verification returns `false`
immediately. -/
def fsverity_add_data_blocks_loop (env : VerityEnv) (multibuffer : Bool) (dp : DataPage) :
    Nat → Nat → Nat → BatchState → Bool × BatchState
  | 0, _, _, bs => (true, bs)
  | fuel + 1, pos, offset, bs =>
    match multibuffer, bs.pending with
    | true, some pending =>
      let bs2 : BatchState := ⟨bs.st, none, bs.max_ra_pages, bs.tr.bump_data 1 2⟩
      match fsverity_hash_2_blocks env pending.1 dp.bytes with
      | none => (false, bs2)
      | some hs =>
        let r1 := batch_verify_block env bs2 hs.1 pending.2
        if !r1.1 then (false, r1.2)
        else
          let r2 := batch_verify_block env r1.2 hs.2 pos
          if !r2.1 then (false, r2.2)
          else fsverity_add_data_blocks_loop env multibuffer dp fuel
                 (pos + env.tree_params.block_size) (offset + env.tree_params.block_size) r2.2
    | true, none =>
      fsverity_add_data_blocks_loop env multibuffer dp fuel
        (pos + env.tree_params.block_size) (offset + env.tree_params.block_size)
        ⟨bs.st, some (dp.bytes, pos), bs.max_ra_pages, bs.tr.bump_data 1 0⟩
    | false, _ =>
      let bs2 : BatchState := ⟨bs.st, bs.pending, bs.max_ra_pages, bs.tr.bump_data 1 1⟩
      match env.hash_block (dp.bytes.take env.tree_params.block_size) with
      | none => (false, bs2)
      | some h =>
        let r := batch_verify_block env bs2 h pos
        if !r.1 then (false, r.2)
        else fsverity_add_data_blocks_loop env multibuffer dp fuel
               (pos + env.tree_params.block_size) (offset + env.tree_params.block_size) r.2

/-- The argument and page-state checks at the head of
`fsverity_add_data_blocks` (`WARN_ON_ONCE(len <= 0 || !IS_ALIGNED(len |
offset, block_size))` and `WARN_ON_ONCE(!PageLocked(data_page) ||
PageUptodate(data_page))`), as one boolean. -/
def fsverity_batch_args_ok (p : MerkleTreeParams) (dp : DataPage) (len offset : Nat) : Bool :=
  decide (len ≠ 0 ∧ (len ||| offset) % p.block_size = 0) && (dp.locked && !dp.uptodate)

/-- Transcription of `fsverity_add_data_blocks(ctx, data_page, len,
offset)`, with the multibuffer flag as an explicit parameter (the source
reads it from `params->hash_alg->supports_multibuffer`).  The position of
the first block is `((u64)data_page->index << PAGE_SHIFT) + offset`. -/
def fsverity_add_data_blocks_mode (env : VerityEnv) (multibuffer : Bool)
    (bs : BatchState) (dp : DataPage) (len offset : Nat) : Bool × BatchState :=
  let p := env.tree_params
  let pos := dp.index * p.page_size + offset
  if len = 0 || !decide ((len ||| offset) % p.block_size = 0) then (false, bs)
  else if !dp.locked || dp.uptodate then (false, bs)
  else fsverity_add_data_blocks_loop env multibuffer dp (len / p.block_size) pos offset bs

/-- `fsverity_add_data_blocks` with the multibuffer flag taken from the
tree parameters, as in the source. -/
def fsverity_add_data_blocks (env : VerityEnv) (bs : BatchState) (dp : DataPage)
    (len offset : Nat) : Bool × BatchState :=
  fsverity_add_data_blocks_mode env env.tree_params.supports_multibuffer bs dp len offset

/-- Transcription of `fsverity_finish_verification(ctx)`: if a block is
still pending (odd number of blocks with multibuffer hashing), hash and
verify it by itself, unmapping it in any case. -/
def fsverity_finish_verification (env : VerityEnv) (bs : BatchState) : Bool × BatchState :=
  match bs.pending with
  | none => (true, bs)
  | some pending =>
    let bs : BatchState := ⟨bs.st, none, bs.max_ra_pages, bs.tr.bump_data 0 1⟩
    match env.hash_block (pending.1.take env.tree_params.block_size) with
    | none => (false, bs)
    | some h => batch_verify_block env bs h pending.2

/-- Transcription of `fsverity_abort_verification(ctx)`: unmap a
still-pending data block. -/
def fsverity_abort_verification (bs : BatchState) : BatchState :=
  match bs.pending with
  | none => bs
  | some _ => ⟨bs.st, none, bs.max_ra_pages, bs.tr.bump_data 0 1⟩

/-- Transcription of `fsverity_verify_blocks(page, len, offset)` with the
multibuffer flag explicit: initialize a context with `max_ra_pages = 0`,
add the page's blocks, abort on failure, and finish. -/
def fsverity_verify_blocks_mode (env : VerityEnv) (multibuffer : Bool) (st : VerityState)
    (dp : DataPage) (len offset : Nat) : Bool × BatchState :=
  let bs : BatchState := ⟨st, none, 0, {}⟩
  let r := fsverity_add_data_blocks_mode env multibuffer bs dp len offset
  if !r.1 then (false, fsverity_abort_verification r.2)
  else fsverity_finish_verification env r.2

/-- The exported entry point `fsverity_verify_blocks`, with the multibuffer
flag taken from the tree parameters. -/
def fsverity_verify_blocks (env : VerityEnv) (st : VerityState)
    (dp : DataPage) (len offset : Nat) : Bool × BatchState :=
  fsverity_verify_blocks_mode env env.tree_params.supports_multibuffer st dp len offset

/-! ## Basic lemmas about the tracker operations -/

theorem foldl_clear_bit_eval (base : Nat) :
    ∀ (n : Nat) (f : Nat → Bool) (j : Nat),
    ((List.range n).foldl (fun g i => clear_bit (base + i) g) f) j
      = if base ≤ j ∧ j < base + n then false else f j := by
  intro n
  induction n with
  | zero =>
    intro f j
    simp only [List.range_zero, List.foldl_nil]
    rw [if_neg (by omega)]
  | succ n ih =>
    intro f j
    rw [List.range_succ, List.foldl_append, List.foldl_cons, List.foldl_nil]
    show clear_bit (base + n) _ j = _
    by_cases hj : j = base + n
    · subst hj; simp [clear_bit]
    · rw [clear_bit, if_neg hj, ih f j]
      split_ifs with h1 h2 h2 <;> first | rfl | omega

theorem div_eq_iff_range (bpp j q : Nat) (hbpp : 0 < bpp) :
    j / bpp = q ↔ bpp * q ≤ j ∧ j < bpp * q + bpp := by
  have hd := Nat.div_add_mod j bpp
  have hlt := Nat.mod_lt j hbpp
  constructor
  · intro h
    rw [h] at hd
    omega
  · rintro ⟨h1, h2⟩
    by_contra hne
    rcases Nat.lt_or_ge (j / bpp) q with hlt2 | hge
    · have h3 := Nat.mul_le_mul_left bpp (Nat.succ_le_of_lt hlt2)
      rw [Nat.mul_succ] at h3
      omega
    · have hgt : q < j / bpp := lt_of_le_of_ne hge (Ne.symm hne)
      have h3 := Nat.mul_le_mul_left bpp (Nat.succ_le_of_lt hgt)
      rw [Nat.mul_succ] at h3
      omega

/-! ## Concrete environments for witnesses -/

/-- A bitmap-mode example: 4-byte blocks, 1-byte digests, two blocks per
page (8-byte pages), a 2-level tree whose two hash blocks share page 0
(level 1 at block 0, level 0 at block 1). -/
def bparams : MerkleTreeParams :=
  { log_blocksize := 2, log_arity := 2, log_digestsize := 0, log_blocks_per_page := 1,
    num_levels := 2, level_start := [1, 0], tree_pages := 1, supports_multibuffer := true }

/-- The single tree page of the bitmap-mode example: block 0 (level 1)
stores the hash 3 of the level-0 block, block 1 (level 0) stores the data
block's hash 7. -/
def bpage : Bytes := [3, 0, 0, 0, 7, 9, 9, 9]

/-- Bitmap-mode example environment; the hash of a block is the sum of its
bytes mod 256. -/
def benv : VerityEnv :=
  { tree_params := bparams, root_hash := [3], zero_block_hash := [5],
    has_bitmap := true, i_size := 16,
    read_merkle_tree_page := fun _ => some bpage,
    hash_block := fun b => some [b.foldl (fun a c => a + c) 0 % 256] }

/-- Bitmap-mode example state: bit 1 (the level-0 block) set, all pages
fresh. -/
def bstate : VerityState := ⟨fun j => j == 1, fun _ => false⟩

/-- Bitmap-mode example state with page 0 already non-fresh. -/
def bstate2 : VerityState := ⟨fun j => j == 1, fun p => p == 0⟩

/-! ## Claim C2 -/

/-- Claim C2: in bitmap mode, `is_hash_block_verified` on a freshly loaded
page (its `PG_checked` flag still clear) clears the bitmap bit of every
hash block residing on that page, leaves all other bits alone, marks the
page no-longer-fresh and returns `false`; on a page that is not fresh it
returns the stored bit for the requested block and leaves the state
unchanged. -/
theorem C2_bitmap_freshness_forces_reverification (env : VerityEnv) (st : VerityState)
    (hpage_idx hblock_idx : Nat)
    (hb : env.has_bitmap = true)
    (hpg : hpage_idx = hblock_idx >>> env.tree_params.log_blocks_per_page) :
    if st.checked hpage_idx then
      is_hash_block_verified env st hpage_idx hblock_idx = (st.bitmap hblock_idx, st)
    else
      (is_hash_block_verified env st hpage_idx hblock_idx).1 = false ∧
      (is_hash_block_verified env st hpage_idx hblock_idx).2.checked hpage_idx = true ∧
      (∀ j, j >>> env.tree_params.log_blocks_per_page = hpage_idx →
        (is_hash_block_verified env st hpage_idx hblock_idx).2.bitmap j = false) ∧
      (∀ j, j >>> env.tree_params.log_blocks_per_page ≠ hpage_idx →
        (is_hash_block_verified env st hpage_idx hblock_idx).2.bitmap j = st.bitmap j) := by
  have hbpp : 0 < env.tree_params.blocks_per_page := Nat.pos_pow_of_pos _ (by norm_num)
  have hbpp2 : env.tree_params.blocks_per_page = 2 ^ env.tree_params.log_blocks_per_page := rfl
  by_cases hc : st.checked hpage_idx = true
  · simp only [hc, if_true]
    simp [is_hash_block_verified, hb, hc]
  · have hc' : st.checked hpage_idx = false := by
      cases h : st.checked hpage_idx
      · rfl
      · exact absurd h hc
    simp only [hc', Bool.false_eq_true, if_false]
    have hr : is_hash_block_verified env st hpage_idx hblock_idx =
        (false,
         ⟨(List.range env.tree_params.blocks_per_page).foldl
            (fun f i => clear_bit (round_down hblock_idx env.tree_params.blocks_per_page + i) f)
            st.bitmap,
          set_bit hpage_idx st.checked⟩) := by
      simp [is_hash_block_verified, hb, hc']
    have hpg' : hpage_idx = hblock_idx / 2 ^ env.tree_params.log_blocks_per_page := by
      rw [hpg, Nat.shiftRight_eq_div_pow]
    have hbase : round_down hblock_idx env.tree_params.blocks_per_page
        = env.tree_params.blocks_per_page * hpage_idx := by
      have hdd := Nat.div_add_mod hblock_idx (2 ^ env.tree_params.log_blocks_per_page)
      rw [round_down, hbpp2, hpg']
      omega
    rw [hr]
    refine ⟨rfl, by simp [set_bit], ?_, ?_⟩
    · intro j hj
      show (List.range _).foldl _ st.bitmap j = false
      rw [foldl_clear_bit_eval, if_pos]
      rw [Nat.shiftRight_eq_div_pow] at hj
      have hbounds := (div_eq_iff_range (2 ^ env.tree_params.log_blocks_per_page) j hpage_idx
        (Nat.pos_pow_of_pos _ (by norm_num))).mp hj
      rw [hbase, hbpp2]
      omega
    · intro j hj
      show (List.range _).foldl _ st.bitmap j = st.bitmap j
      rw [foldl_clear_bit_eval, if_neg]
      intro hcontra
      apply hj
      rw [Nat.shiftRight_eq_div_pow]
      refine (div_eq_iff_range (2 ^ env.tree_params.log_blocks_per_page) j hpage_idx
        (Nat.pos_pow_of_pos _ (by norm_num))).mpr ?_
      rw [hbase, hbpp2] at hcontra
      omega

/-- Witness for C2: the theorem applied to the concrete bitmap-mode
environment, at a fresh page holding hash blocks 0 and 1. -/
theorem C2_bitmap_freshness_forces_reverification_witness :
    if bstate.checked 0 then
      is_hash_block_verified benv bstate 0 1 = (bstate.bitmap 1, bstate)
    else
      (is_hash_block_verified benv bstate 0 1).1 = false ∧
      (is_hash_block_verified benv bstate 0 1).2.checked 0 = true ∧
      (∀ j, j >>> benv.tree_params.log_blocks_per_page = 0 →
        (is_hash_block_verified benv bstate 0 1).2.bitmap j = false) ∧
      (∀ j, j >>> benv.tree_params.log_blocks_per_page ≠ 0 →
        (is_hash_block_verified benv bstate 0 1).2.bitmap j = bstate.bitmap j) :=
  C2_bitmap_freshness_forces_reverification benv bstate 0 1 rfl (by decide)

/-! ## Claim C1 -/

/-- A standard-geometry environment: 4096-byte blocks and pages, 32-byte
digests (so 128-ary); the file is empty, making every position lie past
`i_size`. -/
def zparams : MerkleTreeParams :=
  { log_blocksize := 12, log_arity := 7, log_digestsize := 5, log_blocks_per_page := 0,
    num_levels := 1, level_start := [0], tree_pages := 1, supports_multibuffer := false }

/-- A 32-byte digest, standing for the precomputed hash of an all-zero
block (the spec: digests are `digest_size` bytes). -/
def zhash : Bytes := List.replicate 32 7

/-- Environment for the past-end-of-data case. -/
def zenv : VerityEnv :=
  { tree_params := zparams, root_hash := zhash, zero_block_hash := zhash,
    has_bitmap := false, i_size := 0,
    read_merkle_tree_page := fun _ => none, hash_block := fun _ => none }

/-- All-clear verification state. -/
def zstate : VerityState := ⟨fun _ => false, fun _ => false⟩

/-- Claim C1 (refuted by the code as written): for a block past `i_size`
whose digest is exactly `zero_block_hash`, the claim promises `Authentic`;
but the source compares `params->block_size` bytes (4096) of the two
digest buffers (`memcmp(vi->zero_block_hash, real_dblock_hash,
params->block_size)` in `verify_data_block`), which reads far past the end
of both `digest_size`-byte digests — an out-of-bounds read, so the
comparison the claim describes is not what the code performs.  The theorem
evaluates the embedded code at the failing input: the `memcmp` length
exceeds both buffers and the outcome is the undefined-behavior marker, not
`Authentic`. -/
theorem C1_eof_zero_hash_memcmp_reads_out_of_bounds :
    (verify_data_block zenv zstate zhash 0 0).1 = VerifyOutcome.oob ∧
    zhash = zenv.zero_block_hash ∧
    zhash.length = zparams.digest_size ∧
    zparams.digest_size < zparams.block_size ∧
    memcmp_eq zenv.zero_block_hash zhash zparams.block_size = none := by
  refine ⟨?_, rfl, by decide, by decide, ?_⟩ <;> rfl

/-! ## Trace lemmas for descent and ascent -/

theorem descend_trace (env : VerityEnv) :
    ∀ (stack : List HashBlockLoc) (want : Bytes) (st : VerityState) (tr : Trace),
    (descend env stack want st tr).2.2.acq = tr.acq ∧
    (descend env stack want st tr).2.2.fetches = tr.fetches ∧
    (descend env stack want st tr).2.2.queries = tr.queries ∧
    (descend env stack want st tr).2.2.data_maps = tr.data_maps ∧
    (descend env stack want st tr).2.2.data_unmaps = tr.data_unmaps ∧
    (descend env stack want st tr).2.2.verified = tr.verified ∧
    (descend env stack want st tr).2.2.rel = tr.rel ++ stack.map (·.page) := by
  intro stack
  induction stack with
  | nil =>
    intro want st tr
    simp [descend]
  | cons loc rest ih =>
    intro want st tr
    unfold descend
    cases h : env.hash_block (loc.addr.take env.tree_params.block_size) with
    | none => simp [h, release_all]
    | some real =>
      cases hm : memcmp_eq want real env.tree_params.digest_size with
      | none => simp [h, hm, release_all]
      | some same =>
        cases same with
        | false => simp [h, hm, release_all]
        | true => simp [h, hm, ih]

theorem ascend_trace_data (env : VerityEnv) (mra : Nat) :
    ∀ (r hidx level : Nat) (stack : List HashBlockLoc) (st : VerityState) (tr : Trace),
    (ascend env mra hidx r level stack st tr).2.2.data_maps = tr.data_maps ∧
    (ascend env mra hidx r level stack st tr).2.2.data_unmaps = tr.data_unmaps ∧
    (ascend env mra hidx r level stack st tr).2.2.verified = tr.verified ∧
    (ascend env mra hidx r level stack st tr).2.2.hashes = tr.hashes := by
  intro r
  induction r with
  | zero =>
    intro hidx level stack st tr
    simp [ascend]
  | succ r ih =>
    intro hidx level stack st tr
    unfold ascend
    cases h : env.read_merkle_tree_page (step_hpage_idx env hidx level) with
    | none => simp
    | some pg =>
      cases hv : (is_hash_block_verified env st (step_hpage_idx env hidx level)
          (step_hblock_idx env hidx level)).1 with
      | true => simp [hv]
      | false => simp [hv, ih]

theorem ascend_balance (env : VerityEnv) (mra : Nat) :
    ∀ (r hidx level : Nat) (stack : List HashBlockLoc) (st : VerityState) (tr : Trace),
    ((tr.acq : Multiset Nat) = (tr.rel : Multiset Nat) + (stack.map (·.page) : Multiset Nat)) →
    (match (ascend env mra hidx r level stack st tr).1 with
     | .ioerr stk =>
       ((ascend env mra hidx r level stack st tr).2.2.acq : Multiset Nat)
         = ((ascend env mra hidx r level stack st tr).2.2.rel : Multiset Nat)
           + (stk.map (·.page) : Multiset Nat)
     | .stopped _ stk _ =>
       ((ascend env mra hidx r level stack st tr).2.2.acq : Multiset Nat)
         = ((ascend env mra hidx r level stack st tr).2.2.rel : Multiset Nat)
           + (stk.map (·.page) : Multiset Nat)) := by
  intro r
  induction r with
  | zero =>
    intro hidx level stack st tr hbal
    simpa [ascend] using hbal
  | succ r ih =>
    intro hidx level stack st tr hbal
    unfold ascend
    cases h : env.read_merkle_tree_page (step_hpage_idx env hidx level) with
    | none => simpa using hbal
    | some pg =>
      cases hv : (is_hash_block_verified env st (step_hpage_idx env hidx level)
          (step_hblock_idx env hidx level)).1 with
      | true =>
        simp only [hv, if_true]
        have : ((tr.acq ++ [step_hpage_idx env hidx level] : List Nat) : Multiset Nat)
            = ((tr.rel ++ [step_hpage_idx env hidx level] : List Nat) : Multiset Nat)
              + (stack.map (·.page) : Multiset Nat) := by
          rw [← Multiset.coe_add, ← Multiset.coe_add, hbal]
          abel
        simpa using this
      | false =>
        simp only [hv, if_false, Bool.false_eq_true]
        have hbal2 : ((tr.acq ++ [step_hpage_idx env hidx level] : List Nat) : Multiset Nat)
            = ((tr.rel : List Nat) : Multiset Nat)
              + (((step_loc env pg hidx level :: stack).map (·.page)) : Multiset Nat) := by
          have h1 : ((tr.acq ++ [step_hpage_idx env hidx level] : List Nat) : Multiset Nat)
              = ((tr.acq : List Nat) : Multiset Nat) + {step_hpage_idx env hidx level} := by
            rw [← Multiset.coe_add]
            simp
          have h2 : (((step_loc env pg hidx level :: stack).map (·.page)) : Multiset Nat)
              = {step_hpage_idx env hidx level} + ((stack.map (·.page)) : Multiset Nat) := by
            rw [List.map_cons, ← Multiset.cons_coe, Multiset.singleton_add]
            rfl
          rw [h1, h2, hbal]
          abel
        exact ih _ _ _ _ _ hbal2

theorem verify_tail_trace (env : VerityEnv) (want : Bytes) (stack : List HashBlockLoc)
    (d : Bytes) (st : VerityState) (tr : Trace) :
    (verify_tail env want stack d st tr).2.2 = (descend env stack want st tr).2.2 ∧
    (verify_tail env want stack d st tr).2.1 = (descend env stack want st tr).2.1 := by
  unfold verify_tail
  rcases hd : descend env stack want st tr with ⟨res, st1, tr1⟩
  cases res with
  | ok w =>
    cases hm : memcmp_eq w d env.tree_params.digest_size with
    | none => simp [hm]
    | some same => cases same <;> simp [hm]
  | corrupted l => simp
  | ioerr => simp
  | oob => simp

theorem verify_data_block_balance (env : VerityEnv) (st : VerityState) (d : Bytes)
    (pos mra : Nat) :
    ((verify_data_block env st d pos mra).2.2.acq : Multiset Nat)
      = ((verify_data_block env st d pos mra).2.2.rel : Multiset Nat) ∧
    (verify_data_block env st d pos mra).2.2.data_maps = 0 ∧
    (verify_data_block env st d pos mra).2.2.data_unmaps = 0 := by
  unfold verify_data_block
  by_cases hsz : env.i_size ≤ pos
  · simp only [hsz, if_true]
    cases hm : memcmp_eq env.zero_block_hash d env.tree_params.block_size with
    | none => simp
    | some same => cases same <;> simp
  · simp only [hsz, if_false]
    rcases hA : ascend env mra (pos >>> env.tree_params.log_blocksize)
        env.tree_params.num_levels 0 [] st {} with ⟨res, st1, tr1⟩
    have hbal := ascend_balance env mra env.tree_params.num_levels
      (pos >>> env.tree_params.log_blocksize) 0 [] st {} (by simp)
    have hdata := ascend_trace_data env mra env.tree_params.num_levels
      (pos >>> env.tree_params.log_blocksize) 0 [] st {}
    rw [hA] at hbal hdata
    cases res with
    | ioerr stk =>
      simp only at hbal
      refine ⟨?_, hdata.1, hdata.2.1⟩
      show ((tr1.acq : List Nat) : Multiset Nat)
        = ((tr1.rel ++ stk.map (·.page) : List Nat) : Multiset Nat)
      rw [← Multiset.coe_add]
      exact hbal
    | stopped w stk stop =>
      simp only at hbal
      have htr := (verify_tail_trace env w stk d st1 tr1).1
      have hdd := descend_trace env stk w st1 tr1
      rw [htr]
      refine ⟨?_, ?_, ?_⟩
      · rw [hdd.1, hdd.2.2.2.2.2.2, ← Multiset.coe_add]
        exact hbal
      · rw [hdd.2.2.2.1]
        exact hdata.1
      · rw [hdd.2.2.2.2.1]
        exact hdata.2.1

/-- Number of data blocks held by a pending slot. -/
def pendCount : Option (Bytes × Nat) → Nat
  | none => 0
  | some _ => 1

theorem batch_verify_block_eq (env : VerityEnv) (bs : BatchState) (h : Bytes) (pos : Nat)
    (out : VerifyOutcome) (st1 : VerityState) (vtr : Trace)
    (hr : verify_data_block env bs.st h pos bs.max_ra_pages = (out, st1, vtr)) :
    batch_verify_block env bs h pos =
      (decide (out = .authentic),
       ⟨st1, bs.pending, bs.max_ra_pages,
        { bs.tr.append vtr with
            verified := (bs.tr.append vtr).verified ++ [(pos, decide (out = .authentic))] }⟩) := by
  unfold batch_verify_block
  rw [hr]

theorem batch_verify_block_inv (env : VerityEnv) (bs : BatchState) (h : Bytes) (pos : Nat)
    (hb : (bs.tr.acq : Multiset Nat) = (bs.tr.rel : Multiset Nat)) :
    ((batch_verify_block env bs h pos).2.tr.acq : Multiset Nat)
      = ((batch_verify_block env bs h pos).2.tr.rel : Multiset Nat) ∧
    (batch_verify_block env bs h pos).2.tr.data_maps = bs.tr.data_maps ∧
    (batch_verify_block env bs h pos).2.tr.data_unmaps = bs.tr.data_unmaps ∧
    (batch_verify_block env bs h pos).2.pending = bs.pending ∧
    (batch_verify_block env bs h pos).2.max_ra_pages = bs.max_ra_pages := by
  have hv := verify_data_block_balance env bs.st h pos bs.max_ra_pages
  rcases hr : verify_data_block env bs.st h pos bs.max_ra_pages with ⟨out, st1, vtr⟩
  rw [hr] at hv
  dsimp only at hv
  rw [batch_verify_block_eq env bs h pos out st1 vtr hr]
  dsimp only [Trace.append]
  refine ⟨?_, ?_, ?_, rfl, rfl⟩
  · rw [← Multiset.coe_add, ← Multiset.coe_add, hb, hv.1]
  · omega
  · omega

theorem loop_resource_inv (env : VerityEnv) (mb : Bool) (dp : DataPage) :
    ∀ (fuel pos offset : Nat) (bs : BatchState),
    (bs.tr.acq : Multiset Nat) = (bs.tr.rel : Multiset Nat) →
    bs.tr.data_maps = bs.tr.data_unmaps + pendCount bs.pending →
    ((fsverity_add_data_blocks_loop env mb dp fuel pos offset bs).2.tr.acq : Multiset Nat)
      = ((fsverity_add_data_blocks_loop env mb dp fuel pos offset bs).2.tr.rel : Multiset Nat) ∧
    (fsverity_add_data_blocks_loop env mb dp fuel pos offset bs).2.tr.data_maps
      = (fsverity_add_data_blocks_loop env mb dp fuel pos offset bs).2.tr.data_unmaps
        + pendCount (fsverity_add_data_blocks_loop env mb dp fuel pos offset bs).2.pending := by
  intro fuel
  induction fuel with
  | zero =>
    intro pos offset bs h1 h2
    exact ⟨h1, h2⟩
  | succ fuel ih =>
    intro pos offset bs h1 h2
    unfold fsverity_add_data_blocks_loop
    cases hmb : mb with
    | true =>
      rw [hmb] at ih
      cases hp : bs.pending with
      | some pending =>
        rw [hp] at h2
        simp only [pendCount] at h2
        simp only [hp]
        cases hh : fsverity_hash_2_blocks env pending.1 dp.bytes with
        | none =>
          simp only [hh]
          refine ⟨h1, ?_⟩
          show (bs.tr.bump_data 1 2).data_maps
            = (bs.tr.bump_data 1 2).data_unmaps + pendCount none
          simp only [pendCount, Trace.bump_data_data_maps, Trace.bump_data_data_unmaps]
          omega
        | some hs =>
          simp only [hh]
          have hb1 : ((⟨bs.st, none, bs.max_ra_pages, bs.tr.bump_data 1 2⟩ :
              BatchState).tr.acq : Multiset Nat)
              = ((⟨bs.st, none, bs.max_ra_pages, bs.tr.bump_data 1 2⟩ :
              BatchState).tr.rel : Multiset Nat) := by
            simpa [Trace.bump_data_acq, Trace.bump_data_rel] using h1
          have hv1 := batch_verify_block_inv env
            ⟨bs.st, none, bs.max_ra_pages, bs.tr.bump_data 1 2⟩ hs.1 pending.2 hb1
          rcases hr1 : batch_verify_block env
            ⟨bs.st, none, bs.max_ra_pages, bs.tr.bump_data 1 2⟩ hs.1 pending.2 with ⟨ok1, c1⟩
          rw [hr1] at hv1
          dsimp only at hv1
          simp only [Trace.bump_data_data_maps, Trace.bump_data_data_unmaps] at hv1
          simp only [hr1]
          cases ok1 with
          | false =>
            refine ⟨hv1.1, ?_⟩
            show c1.tr.data_maps = c1.tr.data_unmaps + pendCount c1.pending
            rw [hv1.2.1, hv1.2.2.1, hv1.2.2.2.1]
            simp only [pendCount]
            omega
          | true =>
            have hv2 := batch_verify_block_inv env c1 hs.2 pos hv1.1
            rcases hr2 : batch_verify_block env c1 hs.2 pos with ⟨ok2, c2⟩
            rw [hr2] at hv2
            dsimp only at hv2
            simp only [hr2]
            cases ok2 with
            | false =>
              refine ⟨hv2.1, ?_⟩
              show c2.tr.data_maps = c2.tr.data_unmaps + pendCount c2.pending
              rw [hv2.2.1, hv2.2.2.1, hv2.2.2.2.1, hv1.2.1, hv1.2.2.1, hv1.2.2.2.1]
              simp only [pendCount]
              omega
            | true =>
              exact ih _ _ _ hv2.1
                (by rw [hv2.2.1, hv2.2.2.1, hv2.2.2.2.1, hv1.2.1, hv1.2.2.1, hv1.2.2.2.1]
                    simp only [pendCount]
                    omega)
      | none =>
        rw [hp] at h2
        simp only [pendCount] at h2
        simp only [hp]
        apply ih
        · simpa [Trace.bump_data_acq, Trace.bump_data_rel] using h1
        · show (bs.tr.bump_data 1 0).data_maps
            = (bs.tr.bump_data 1 0).data_unmaps + pendCount (some (dp.bytes, pos))
          simp only [pendCount, Trace.bump_data_data_maps, Trace.bump_data_data_unmaps]
          omega
    | false =>
      rw [hmb] at ih
      cases hp : bs.pending with
      | some pending =>
        rw [hp] at h2
        simp only [pendCount] at h2
        cases hh : env.hash_block (dp.bytes.take env.tree_params.block_size) with
        | none =>
          simp only [hh]
          refine ⟨h1, ?_⟩
          show (bs.tr.bump_data 1 1).data_maps
            = (bs.tr.bump_data 1 1).data_unmaps + pendCount (some pending)
          simp only [pendCount, Trace.bump_data_data_maps, Trace.bump_data_data_unmaps]
          omega
        | some h =>
          simp only [hh]
          have hb1 : ((⟨bs.st, some pending, bs.max_ra_pages, bs.tr.bump_data 1 1⟩ :
              BatchState).tr.acq : Multiset Nat)
              = ((⟨bs.st, some pending, bs.max_ra_pages, bs.tr.bump_data 1 1⟩ :
              BatchState).tr.rel : Multiset Nat) := by
            simpa [Trace.bump_data_acq, Trace.bump_data_rel] using h1
          have hv := batch_verify_block_inv env
            ⟨bs.st, some pending, bs.max_ra_pages, bs.tr.bump_data 1 1⟩ h pos hb1
          rcases hr : batch_verify_block env
            ⟨bs.st, some pending, bs.max_ra_pages, bs.tr.bump_data 1 1⟩ h pos with ⟨ok, c1⟩
          rw [hr] at hv
          dsimp only at hv
          simp only [Trace.bump_data_data_maps, Trace.bump_data_data_unmaps] at hv
          simp only [hr]
          cases ok with
          | false =>
            refine ⟨hv.1, ?_⟩
            show c1.tr.data_maps = c1.tr.data_unmaps + pendCount c1.pending
            rw [hv.2.1, hv.2.2.1, hv.2.2.2.1]
            simp only [pendCount]
            omega
          | true =>
            exact ih _ _ _ hv.1
              (by rw [hv.2.1, hv.2.2.1, hv.2.2.2.1]; simp only [pendCount]; omega)
      | none =>
        rw [hp] at h2
        simp only [pendCount] at h2
        cases hh : env.hash_block (dp.bytes.take env.tree_params.block_size) with
        | none =>
          simp only [hh]
          refine ⟨h1, ?_⟩
          show (bs.tr.bump_data 1 1).data_maps
            = (bs.tr.bump_data 1 1).data_unmaps + pendCount (none : Option (Bytes × Nat))
          simp only [pendCount, Trace.bump_data_data_maps, Trace.bump_data_data_unmaps]
          omega
        | some h =>
          simp only [hh]
          have hb1 : ((⟨bs.st, none, bs.max_ra_pages, bs.tr.bump_data 1 1⟩ :
              BatchState).tr.acq : Multiset Nat)
              = ((⟨bs.st, none, bs.max_ra_pages, bs.tr.bump_data 1 1⟩ :
              BatchState).tr.rel : Multiset Nat) := by
            simpa [Trace.bump_data_acq, Trace.bump_data_rel] using h1
          have hv := batch_verify_block_inv env
            ⟨bs.st, none, bs.max_ra_pages, bs.tr.bump_data 1 1⟩ h pos hb1
          rcases hr : batch_verify_block env
            ⟨bs.st, none, bs.max_ra_pages, bs.tr.bump_data 1 1⟩ h pos with ⟨ok, c1⟩
          rw [hr] at hv
          dsimp only at hv
          simp only [Trace.bump_data_data_maps, Trace.bump_data_data_unmaps] at hv
          simp only [hr]
          cases ok with
          | false =>
            refine ⟨hv.1, ?_⟩
            show c1.tr.data_maps = c1.tr.data_unmaps + pendCount c1.pending
            rw [hv.2.1, hv.2.2.1, hv.2.2.2.1]
            simp only [pendCount]
            omega
          | true =>
            exact ih _ _ _ hv.1
              (by rw [hv.2.1, hv.2.2.1, hv.2.2.2.1]; simp only [pendCount]; omega)


theorem finish_resource_inv (env : VerityEnv) (bs : BatchState)
    (h1 : (bs.tr.acq : Multiset Nat) = (bs.tr.rel : Multiset Nat))
    (h2 : bs.tr.data_maps = bs.tr.data_unmaps + pendCount bs.pending) :
    ((fsverity_finish_verification env bs).2.tr.acq : Multiset Nat)
      = ((fsverity_finish_verification env bs).2.tr.rel : Multiset Nat) ∧
    (fsverity_finish_verification env bs).2.tr.data_maps
      = (fsverity_finish_verification env bs).2.tr.data_unmaps ∧
    (fsverity_finish_verification env bs).2.pending = none := by
  unfold fsverity_finish_verification
  cases hp : bs.pending with
  | none =>
    rw [hp] at h2
    simp only [pendCount] at h2
    simp only [hp]
    exact ⟨h1, by omega, trivial⟩
  | some pending =>
    rw [hp] at h2
    simp only [pendCount] at h2
    simp only [hp]
    cases hh : env.hash_block (pending.1.take env.tree_params.block_size) with
    | none =>
      simp only [hh]
      refine ⟨?_, ?_, trivial⟩
      · simpa [Trace.bump_data_acq, Trace.bump_data_rel] using h1
      · show (bs.tr.bump_data 0 1).data_maps = (bs.tr.bump_data 0 1).data_unmaps
        simp only [Trace.bump_data_data_maps, Trace.bump_data_data_unmaps]
        omega
    | some h =>
      simp only [hh]
      have hb1 : ((⟨bs.st, none, bs.max_ra_pages, bs.tr.bump_data 0 1⟩ :
          BatchState).tr.acq : Multiset Nat)
          = ((⟨bs.st, none, bs.max_ra_pages, bs.tr.bump_data 0 1⟩ :
          BatchState).tr.rel : Multiset Nat) := by
        simpa [Trace.bump_data_acq, Trace.bump_data_rel] using h1
      have hv := batch_verify_block_inv env
        ⟨bs.st, none, bs.max_ra_pages, bs.tr.bump_data 0 1⟩ h pending.2 hb1
      rcases hr : batch_verify_block env
        ⟨bs.st, none, bs.max_ra_pages, bs.tr.bump_data 0 1⟩ h pending.2 with ⟨ok, c1⟩
      rw [hr] at hv
      dsimp only at hv
      simp only [Trace.bump_data_data_maps, Trace.bump_data_data_unmaps] at hv
      simp only [hr]
      refine ⟨hv.1, ?_, hv.2.2.2.1⟩
      rw [hv.2.1, hv.2.2.1]
      omega

theorem abort_resource_inv (bs : BatchState)
    (h1 : (bs.tr.acq : Multiset Nat) = (bs.tr.rel : Multiset Nat))
    (h2 : bs.tr.data_maps = bs.tr.data_unmaps + pendCount bs.pending) :
    ((fsverity_abort_verification bs).tr.acq : Multiset Nat)
      = ((fsverity_abort_verification bs).tr.rel : Multiset Nat) ∧
    (fsverity_abort_verification bs).tr.data_maps
      = (fsverity_abort_verification bs).tr.data_unmaps ∧
    (fsverity_abort_verification bs).pending = none := by
  unfold fsverity_abort_verification
  cases hp : bs.pending with
  | none =>
    rw [hp] at h2
    simp only [pendCount] at h2
    simp only [hp]
    exact ⟨h1, by omega, trivial⟩
  | some pending =>
    rw [hp] at h2
    simp only [pendCount] at h2
    simp only [hp]
    refine ⟨?_, ?_, trivial⟩
    · simpa [Trace.bump_data_acq, Trace.bump_data_rel] using h1
    · show (bs.tr.bump_data 0 1).data_maps = (bs.tr.bump_data 0 1).data_unmaps
      simp only [Trace.bump_data_data_maps, Trace.bump_data_data_unmaps]
      omega

/-! ## Descent characterization lemmas -/

/-- A placeholder locator for total list indexing. -/
def noLoc : HashBlockLoc := ⟨0, [], 0, 0⟩

/-- The expected hash used by the descent at each stack position: the
initial expected value for the first (topmost) node, then each node's
stored child hash for the next. -/
def want_chain (env : VerityEnv) (want : Bytes) : List HashBlockLoc → List Bytes
  | [] => []
  | loc :: rest => want :: want_chain env (stored_hash env loc) rest

theorem want_chain_length (env : VerityEnv) :
    ∀ (stack : List HashBlockLoc) (want : Bytes),
    (want_chain env want stack).length = stack.length := by
  intro stack
  induction stack with
  | nil => intro want; rfl
  | cons loc rest ih => intro want; simp [want_chain, ih]

theorem mark_verified_checked_mono (env : VerityEnv) (st : VerityState)
    (loc : HashBlockLoc) (p : Nat) (h : st.checked p = true) :
    (mark_verified env st loc).checked p = true := by
  unfold mark_verified
  cases env.has_bitmap <;> simp [set_bit, h]

theorem mark_verified_bitmap_mono (env : VerityEnv) (st : VerityState)
    (loc : HashBlockLoc) (i : Nat) (h : st.bitmap i = true) :
    (mark_verified env st loc).bitmap i = true := by
  unfold mark_verified
  cases env.has_bitmap <;> simp [set_bit, h]

theorem mark_verified_marks (env : VerityEnv) (st : VerityState) (loc : HashBlockLoc) :
    (env.has_bitmap = true → (mark_verified env st loc).bitmap loc.index = true) ∧
    (env.has_bitmap = false → (mark_verified env st loc).checked loc.page = true) := by
  unfold mark_verified
  cases h : env.has_bitmap <;> simp [set_bit, h]

theorem descend_ok (env : VerityEnv) :
    ∀ (stack : List HashBlockLoc) (want : Bytes) (st : VerityState) (tr : Trace)
    (w : Bytes) (st1 : VerityState) (tr1 : Trace),
    descend env stack want st tr = (.ok w, st1, tr1) →
    (w = match stack.getLast? with
         | none => want
         | some loc => stored_hash env loc) ∧
    (∀ loc ∈ stack, (env.has_bitmap = true → st1.bitmap loc.index = true) ∧
                    (env.has_bitmap = false → st1.checked loc.page = true)) ∧
    (∀ p, st.checked p = true → st1.checked p = true) ∧
    (∀ i, st.bitmap i = true → st1.bitmap i = true) ∧
    (∀ j, j < stack.length →
      ∃ rh, env.hash_block ((stack.getD j noLoc).addr.take env.tree_params.block_size)
              = some rh ∧
        memcmp_eq ((want_chain env want stack).getD j []) rh env.tree_params.digest_size
          = some true) := by
  intro stack
  induction stack with
  | nil =>
    intro want st tr w st1 tr1 h
    simp only [descend, Prod.mk.injEq, DescentResult.ok.injEq] at h
    obtain ⟨hw, hst, htr⟩ := h
    subst hw
    subst hst
    refine ⟨rfl, by simp, fun p hp => hp, fun i hi => hi, ?_⟩
    intro j hj
    simp at hj
  | cons loc rest ih =>
    intro want st tr w st1 tr1 h
    cases hh : env.hash_block (loc.addr.take env.tree_params.block_size) with
    | none =>
      simp only [descend, hh, Prod.mk.injEq] at h
      exact DescentResult.noConfusion h.1
    | some rh =>
      cases hm : memcmp_eq want rh env.tree_params.digest_size with
      | none =>
        simp only [descend, hh, hm, Prod.mk.injEq] at h
        exact DescentResult.noConfusion h.1
      | some same =>
        cases same with
        | false =>
          simp only [descend, hh, hm, Bool.not_false, if_true, Prod.mk.injEq] at h
          exact DescentResult.noConfusion h.1
        | true =>
          simp only [descend, hh, hm, Bool.not_true, Bool.false_eq_true, if_false] at h
          have IH := ih (stored_hash env loc) (mark_verified env st loc) _ w st1 tr1 h
          refine ⟨?_, ?_, ?_, ?_, ?_⟩
          · cases rest with
            | nil => simpa using IH.1
            | cons b l =>
              rw [List.getLast?_cons_cons]
              exact IH.1
          · intro x hx
            rcases List.mem_cons.mp hx with hx | hx
            · subst hx
              constructor
              · intro hb
                exact IH.2.2.2.1 _ ((mark_verified_marks env st x).1 hb)
              · intro hb
                exact IH.2.2.1 _ ((mark_verified_marks env st x).2 hb)
            · exact IH.2.1 x hx
          · intro p hp
            exact IH.2.2.1 p (mark_verified_checked_mono env st loc p hp)
          · intro i hi
            exact IH.2.2.2.1 i (mark_verified_bitmap_mono env st loc i hi)
          · intro j hj
            cases j with
            | zero =>
              refine ⟨rh, hh, ?_⟩
              simpa [want_chain] using hm
            | succ j =>
              have hstep := IH.2.2.2.2 j (by simpa using hj)
              simpa [want_chain] using hstep

theorem descend_corrupted (env : VerityEnv) :
    ∀ (stack : List HashBlockLoc) (want : Bytes) (st : VerityState) (tr : Trace)
    (l : Int) (st1 : VerityState) (tr1 : Trace),
    descend env stack want st tr = (.corrupted l, st1, tr1) →
    ∃ i, i < stack.length ∧ l = ((stack.length - 1 - i : Nat) : Int) ∧
      ∃ rh, env.hash_block ((stack.getD i noLoc).addr.take env.tree_params.block_size)
              = some rh ∧
        memcmp_eq ((want_chain env want stack).getD i []) rh env.tree_params.digest_size
          = some false := by
  intro stack
  induction stack with
  | nil =>
    intro want st tr l st1 tr1 h
    simp only [descend, Prod.mk.injEq] at h
    exact DescentResult.noConfusion h.1
  | cons loc rest ih =>
    intro want st tr l st1 tr1 h
    cases hh : env.hash_block (loc.addr.take env.tree_params.block_size) with
    | none =>
      simp only [descend, hh, Prod.mk.injEq] at h
      exact DescentResult.noConfusion h.1
    | some rh =>
      cases hm : memcmp_eq want rh env.tree_params.digest_size with
      | none =>
        simp only [descend, hh, hm, Prod.mk.injEq] at h
        exact DescentResult.noConfusion h.1
      | some same =>
        cases same with
        | false =>
          simp only [descend, hh, hm, Bool.not_false, if_true, Prod.mk.injEq] at h
          refine ⟨0, by simp, ?_, rh, hh, ?_⟩
          · injection h.1 with hl
            have hlen : (loc :: rest).length = rest.length + 1 := rfl
            omega
          · simpa [want_chain] using hm
        | true =>
          simp only [descend, hh, hm, Bool.not_true, Bool.false_eq_true, if_false] at h
          obtain ⟨i, hi, hl, rh2, hrh2, hmm2⟩ :=
            ih (stored_hash env loc) (mark_verified env st loc) _ l st1 tr1 h
          refine ⟨i + 1, by simp [List.length_cons]; omega, ?_, rh2,
            by simpa using hrh2, by simpa [want_chain] using hmm2⟩
          rw [hl]
          have hlen : (loc :: rest).length = rest.length + 1 := rfl
          congr 1
          omega

/-! ## Claim C4 -/

/-- Claim C4: the descent processes the retained locators from the top
down.  On every outcome all retained locators are released (their pages
appended to the release log).  On the `ok` outcome every retained node's
computed hash matched the expected value chained to it, every retained
node was marked verified in the tracker, and the final expected value is
the stored child hash of the last (level-0) locator — or the initial
expected value when nothing was retained.  A `corrupted l` outcome comes
exactly from a retained node whose computed hash mismatched its chained
expected value, `l` being that node's level.  After the stack empties, the
tail compares the final expected value with the data block's digest:
`authentic` iff they match, `corrupted` at the leaf level (`-1`) on a
definite mismatch. -/
theorem C4_descent_verifies_marks_and_releases (env : VerityEnv)
    (stack : List HashBlockLoc) (want d : Bytes) (st : VerityState) (tr : Trace) :
    (descend env stack want st tr).2.2.rel = tr.rel ++ stack.map (·.page) ∧
    (match descend env stack want st tr with
     | (.ok w, st1, _) =>
       (w = match stack.getLast? with
            | none => want
            | some loc => stored_hash env loc) ∧
       (∀ loc ∈ stack, (env.has_bitmap = true → st1.bitmap loc.index = true) ∧
                       (env.has_bitmap = false → st1.checked loc.page = true)) ∧
       (∀ j, j < stack.length →
         ∃ rh, env.hash_block ((stack.getD j noLoc).addr.take env.tree_params.block_size)
                 = some rh ∧
           memcmp_eq ((want_chain env want stack).getD j []) rh env.tree_params.digest_size
             = some true)
     | (.corrupted l, _, _) =>
       ∃ i, i < stack.length ∧ l = ((stack.length - 1 - i : Nat) : Int) ∧
         ∃ rh, env.hash_block ((stack.getD i noLoc).addr.take env.tree_params.block_size)
                 = some rh ∧
           memcmp_eq ((want_chain env want stack).getD i []) rh env.tree_params.digest_size
             = some false
     | (.ioerr, _, _) => True
     | (.oob, _, _) => True) ∧
    (match descend env stack want st tr with
     | (.ok w, _, _) =>
       ((verify_tail env want stack d st tr).1 = .authentic ↔
         memcmp_eq w d env.tree_params.digest_size = some true) ∧
       (memcmp_eq w d env.tree_params.digest_size = some false →
         (verify_tail env want stack d st tr).1 = .corrupted (-1))
     | _ => True) := by
  refine ⟨(descend_trace env stack want st tr).2.2.2.2.2.2, ?_, ?_⟩
  · rcases h : descend env stack want st tr with ⟨res, st1, tr1⟩
    cases res with
    | ok w =>
      have hx := descend_ok env stack want st tr w st1 tr1 h
      exact ⟨hx.1, hx.2.1, hx.2.2.2.2⟩
    | corrupted l => exact descend_corrupted env stack want st tr l st1 tr1 h
    | ioerr => trivial
    | oob => trivial
  · rcases h : descend env stack want st tr with ⟨res, st1, tr1⟩
    cases res with
    | ok w =>
      constructor
      · unfold verify_tail
        rw [h]
        cases hm : memcmp_eq w d env.tree_params.digest_size with
        | none => simp [hm]
        | some same => cases same <;> simp [hm]
      · intro hm
        unfold verify_tail
        rw [h]
        dsimp only
        rw [hm]
        simp
    | corrupted l => trivial
    | ioerr => trivial
    | oob => trivial

/-! ## Ascent characterization lemmas -/

theorem hidx_at_zero (p : MerkleTreeParams) (hidx0 : Nat) :
    hidx_at p hidx0 0 = hidx0 := by
  unfold hidx_at
  simp

theorem hidx_at_succ (p : MerkleTreeParams) (hidx0 level : Nat) :
    hidx_at p hidx0 (level + 1) = (hidx_at p hidx0 level) >>> p.log_arity := by
  unfold hidx_at
  rw [Nat.succ_mul, Nat.shiftRight_add]

theorem haddr_at_eq (env : VerityEnv) (hidx0 level : Nat) (pg : Bytes)
    (h : env.read_merkle_tree_page (hpage_idx_at env hidx0 level) = some pg) :
    haddr_at env hidx0 level
      = step_haddr env pg (hidx_at env.tree_params hidx0 level) level := by
  unfold haddr_at
  rw [h]

theorem loc_at_eq (env : VerityEnv) (hidx0 level : Nat) (pg : Bytes)
    (h : env.read_merkle_tree_page (hpage_idx_at env hidx0 level) = some pg) :
    loc_at env hidx0 level
      = step_loc env pg (hidx_at env.tree_params hidx0 level) level := by
  unfold loc_at step_loc
  rw [haddr_at_eq env hidx0 level pg h]
  rfl

theorem stored_child_hash_at_eq (env : VerityEnv) (hidx0 level : Nat) (pg : Bytes)
    (h : env.read_merkle_tree_page (hpage_idx_at env hidx0 level) = some pg) :
    stored_child_hash_at env hidx0 level
      = stored_hash env (step_loc env pg (hidx_at env.tree_params hidx0 level) level) := by
  unfold stored_child_hash_at stored_hash
  rw [haddr_at_eq env hidx0 level pg h]
  rfl

theorem ascend_spec (env : VerityEnv) (mra hidx0 : Nat) :
    ∀ (r level : Nat), level + r = env.tree_params.num_levels →
    ∀ (stack : List HashBlockLoc) (st : VerityState) (tr : Trace)
      (want : Bytes) (stk : List HashBlockLoc) (stop : Nat)
      (st1 : VerityState) (tr1 : Trace),
    ascend env mra (hidx_at env.tree_params hidx0 level) r level stack st tr
      = (.stopped want stk stop, st1, tr1) →
    (level ≤ stop ∧ stop ≤ env.tree_params.num_levels) ∧
    tr1.queries = tr.queries ++ (List.range' level (stop - level)).map (fun l => (l, false))
      ++ (if stop < env.tree_params.num_levels then [(stop, true)] else []) ∧
    tr1.fetches = tr.fetches
      ++ (List.range' level (min (stop + 1) env.tree_params.num_levels - level)).map
           (fun l => (l, hpage_idx_at env hidx0 l,
                      step_ra env mra (hidx_at env.tree_params hidx0 l) l)) ∧
    (stop < env.tree_params.num_levels → want = stored_child_hash_at env hidx0 stop) ∧
    (stop = env.tree_params.num_levels → want = env.root_hash) ∧
    stk = ((List.range' level (stop - level)).reverse.map (loc_at env hidx0)) ++ stack := by
  intro r
  induction r with
  | zero =>
    intro level hlr stack st tr want stk stop st1 tr1 h
    simp only [ascend, Prod.mk.injEq, AscentResult.stopped.injEq] at h
    obtain ⟨⟨hw, hstk, hstop⟩, hst, htr⟩ := h
    subst hw
    subst hstk
    subst hst
    subst htr
    have hstop2 : stop = env.tree_params.num_levels := hstop.symm
    subst hstop2
    have h0 : env.tree_params.num_levels - level = 0 := by omega
    refine ⟨⟨by omega, le_refl _⟩, ?_, ?_, by omega, fun _ => rfl, ?_⟩
    · simp [h0]
    · simp [h0]
    · simp [h0]
  | succ r ih =>
    intro level hlr stack st tr want stk stop st1 tr1 h
    cases hread : env.read_merkle_tree_page
        (step_hpage_idx env (hidx_at env.tree_params hidx0 level) level) with
    | none =>
      simp only [ascend, hread, Prod.mk.injEq] at h
      exact AscentResult.noConfusion h.1
    | some pg =>
      cases hv : (is_hash_block_verified env st
          (step_hpage_idx env (hidx_at env.tree_params hidx0 level) level)
          (step_hblock_idx env (hidx_at env.tree_params hidx0 level) level)).1 with
      | true =>
        simp only [ascend, hread, hv, if_true, Prod.mk.injEq,
          AscentResult.stopped.injEq] at h
        obtain ⟨⟨hw, hstk, hstop⟩, hst, htr⟩ := h
        subst hw
        subst hstk
        subst hst
        subst htr
        have hstop2 : stop = level := hstop.symm
        subst hstop2
        have hlev : stop < env.tree_params.num_levels := by omega
        refine ⟨⟨le_refl _, by omega⟩, ?_, ?_, ?_, by intro h2; omega, ?_⟩
        · simp [hlev]
        · have h1 : min (stop + 1) env.tree_params.num_levels - stop = 1 := by omega
          simp only [h1, List.range'_one, List.map_cons, List.map_nil]
          rfl
        · intro _
          exact (stored_child_hash_at_eq env hidx0 stop pg hread).symm
        · simp
      | false =>
        simp only [ascend, hread, hv, Bool.false_eq_true, if_false] at h
        rw [← hidx_at_succ env.tree_params hidx0 level] at h
        obtain ⟨⟨hs1, hs2⟩, hq, hf, hw1, hw2, hstk⟩ :=
          ih (level + 1) (by omega) _ _ _ want stk stop st1 tr1 h
        have hd : stop - level = (stop - (level + 1)) + 1 := by omega
        have hdm : min (stop + 1) env.tree_params.num_levels - level
            = (min (stop + 1) env.tree_params.num_levels - (level + 1)) + 1 := by omega
        refine ⟨⟨by omega, hs2⟩, ?_, ?_, hw1, hw2, ?_⟩
        · rw [hq, hd, List.range'_succ, List.map_cons]
          simp
        · rw [hf, hdm, List.range'_succ, List.map_cons]
          simp [hpage_idx_at]
        · rw [← loc_at_eq env hidx0 level pg hread] at hstk
          rw [hstk, hd, List.range'_succ]
          simp

/-! ## Claim C3 -/

/-- Claim C3: for a block within the logical size the ascent starts at the
leaf and consults `is_hash_block_verified` level by level: the query log
records `false` for every level below the stop and one final `true`
exactly when a verified ancestor was found, so the ascent stops at the
nearest verified ancestor; the fetch log covers exactly levels `0..stop`
and never a higher level; the initial expected value is the stopping
node's stored child hash; and if no level up to the root is verified the
expected value becomes `root_hash` (with exactly levels
`0..num_levels - 1` fetched).  The retained stack is the path below the
stop level. -/
theorem C3_ascent_stops_at_first_verified (env : VerityEnv) (mra hidx0 : Nat)
    (st : VerityState) (want : Bytes) (stk : List HashBlockLoc) (stop : Nat)
    (st1 : VerityState) (tr1 : Trace)
    (h : ascend env mra hidx0 env.tree_params.num_levels 0 [] st {}
          = (.stopped want stk stop, st1, tr1)) :
    stop ≤ env.tree_params.num_levels ∧
    tr1.queries = (List.range stop).map (fun l => (l, false))
      ++ (if stop < env.tree_params.num_levels then [(stop, true)] else []) ∧
    tr1.fetches = (List.range (min (stop + 1) env.tree_params.num_levels)).map
      (fun l => (l, hpage_idx_at env hidx0 l,
                 step_ra env mra (hidx_at env.tree_params hidx0 l) l)) ∧
    (stop < env.tree_params.num_levels → want = stored_child_hash_at env hidx0 stop) ∧
    (stop = env.tree_params.num_levels → want = env.root_hash) ∧
    stk = (List.range stop).reverse.map (loc_at env hidx0) := by
  have h0 : ascend env mra (hidx_at env.tree_params hidx0 0)
      env.tree_params.num_levels 0 [] st {}
      = (.stopped want stk stop, st1, tr1) := by
    rw [hidx_at_zero]
    exact h
  obtain ⟨⟨_, hs2⟩, hq, hf, hw1, hw2, hstk⟩ :=
    ascend_spec env mra hidx0 env.tree_params.num_levels 0 (by omega) [] st {}
      want stk stop st1 tr1 h0
  refine ⟨hs2, ?_, ?_, hw1, hw2, ?_⟩
  · rw [hq]
    simp [List.range_eq_range']
  · rw [hf]
    simp [List.range_eq_range']
  · rw [hstk]
    simp [List.range_eq_range']

/-- Witness for C3: in the concrete bitmap-mode environment with the
level-0 hash block already verified and its page not fresh, the ascent for
data block 0 stops at level 0 with the stored child hash `[7]`, fetching
and querying only level 0. -/
theorem C3_ascent_stops_at_first_verified_witness :
    0 ≤ benv.tree_params.num_levels ∧
    (ascend benv 0 0 benv.tree_params.num_levels 0 [] bstate2 {}).2.2.queries
      = (List.range 0).map (fun l => (l, false))
        ++ (if 0 < benv.tree_params.num_levels then [(0, true)] else []) ∧
    (ascend benv 0 0 benv.tree_params.num_levels 0 [] bstate2 {}).2.2.fetches
      = (List.range (min (0 + 1) benv.tree_params.num_levels)).map
          (fun l => (l, hpage_idx_at benv 0 l,
                     step_ra benv 0 (hidx_at benv.tree_params 0 l) l)) ∧
    (0 < benv.tree_params.num_levels → [7] = stored_child_hash_at benv 0 0) ∧
    (0 = benv.tree_params.num_levels → [7] = benv.root_hash) ∧
    ([] : List HashBlockLoc) = (List.range 0).reverse.map (loc_at benv 0) :=
  C3_ascent_stops_at_first_verified benv 0 0 bstate2 [7] [] 0
    ((ascend benv 0 0 benv.tree_params.num_levels 0 [] bstate2 {}).2.1)
    ((ascend benv 0 0 benv.tree_params.num_levels 0 [] bstate2 {}).2.2) rfl

/-! ## Claim C8 -/

/-- Claim C8: on every exit path of `verify_data_block` — authentic,
corrupted at any level, fetch or hash failure during ascent or descent —
the multiset of mapped-and-retained tree pages equals the multiset of
released ones (so every fetched page is unmapped and dropped before
returning), and a whole `fsverity_verify_blocks` call likewise balances
tree-page acquisitions with releases and data-page maps with unmaps, with
no pending mapped data block left behind (an aborted batch unmaps any
still-pending block). -/
theorem C8_every_exit_path_releases_resources (env : VerityEnv) (st : VerityState)
    (d : Bytes) (pos mra : Nat) (dp : DataPage) (len offset : Nat) :
    ((verify_data_block env st d pos mra).2.2.acq : Multiset Nat)
      = ((verify_data_block env st d pos mra).2.2.rel : Multiset Nat) ∧
    ((fsverity_verify_blocks env st dp len offset).2.tr.acq : Multiset Nat)
      = ((fsverity_verify_blocks env st dp len offset).2.tr.rel : Multiset Nat) ∧
    (fsverity_verify_blocks env st dp len offset).2.tr.data_maps
      = (fsverity_verify_blocks env st dp len offset).2.tr.data_unmaps ∧
    (fsverity_verify_blocks env st dp len offset).2.pending = none := by
  refine ⟨(verify_data_block_balance env st d pos mra).1, ?_⟩
  unfold fsverity_verify_blocks fsverity_verify_blocks_mode fsverity_add_data_blocks_mode
  by_cases hc1 : (len = 0 || !decide ((len ||| offset) % env.tree_params.block_size = 0)) = true
  · simp only [hc1, if_true]
    have := abort_resource_inv ⟨st, none, 0, {}⟩ (by rfl) (by rfl)
    exact ⟨this.1, this.2.1, this.2.2⟩
  · have hc1x : (len = 0 || !decide ((len ||| offset) % env.tree_params.block_size = 0)) = false :=
      Bool.eq_false_iff.mpr hc1
    simp only [hc1x, Bool.false_eq_true, if_false]
    by_cases hc2 : (!dp.locked || dp.uptodate) = true
    · simp only [hc2, if_true]
      have := abort_resource_inv ⟨st, none, 0, {}⟩ (by rfl) (by rfl)
      exact ⟨this.1, this.2.1, this.2.2⟩
    · have hc2x : (!dp.locked || dp.uptodate) = false := Bool.eq_false_iff.mpr hc2
      simp only [hc2x, Bool.false_eq_true, if_false]
      have hloop := loop_resource_inv env env.tree_params.supports_multibuffer dp
        (len / env.tree_params.block_size)
        (dp.index * env.tree_params.page_size + offset) offset
        ⟨st, none, 0, {}⟩ (by rfl) (by rfl)
      rcases hr : fsverity_add_data_blocks_loop env env.tree_params.supports_multibuffer dp
        (len / env.tree_params.block_size)
        (dp.index * env.tree_params.page_size + offset) offset
        ⟨st, none, 0, {}⟩ with ⟨ok, bs1⟩
      rw [hr] at hloop
      dsimp only at hloop
      simp only [hr]
      cases ok with
      | false =>
        have := abort_resource_inv bs1 hloop.1 hloop.2
        exact ⟨this.1, this.2.1, this.2.2⟩
      | true =>
        have := finish_resource_inv env bs1 hloop.1 hloop.2
        exact ⟨this.1, this.2.1, this.2.2⟩

/-! ## Batch verified-log lemmas -/

theorem verify_data_block_verified_log (env : VerityEnv) (st : VerityState) (d : Bytes)
    (pos mra : Nat) :
    (verify_data_block env st d pos mra).2.2.verified = [] := by
  unfold verify_data_block
  by_cases hsz : env.i_size ≤ pos
  · simp only [hsz, if_true]
    cases hm : memcmp_eq env.zero_block_hash d env.tree_params.block_size with
    | none => simp
    | some same => cases same <;> simp
  · simp only [hsz, if_false]
    rcases hA : ascend env mra (pos >>> env.tree_params.log_blocksize)
        env.tree_params.num_levels 0 [] st {} with ⟨res, st1, tr1⟩
    have hdata := ascend_trace_data env mra env.tree_params.num_levels
      (pos >>> env.tree_params.log_blocksize) 0 [] st {}
    rw [hA] at hdata
    dsimp only at hdata
    cases res with
    | ioerr stk =>
      simpa [release_all] using hdata.2.2.1
    | stopped w stk stop =>
      have htr := (verify_tail_trace env w stk d st1 tr1).1
      rw [htr]
      rw [(descend_trace env stk w st1 tr1).2.2.2.2.2.1]
      exact hdata.2.2.1

theorem batch_verify_block_verified_log (env : VerityEnv) (bs : BatchState)
    (h : Bytes) (pos : Nat) :
    (batch_verify_block env bs h pos).2.tr.verified
      = bs.tr.verified ++ [(pos, (batch_verify_block env bs h pos).1)] := by
  rcases hr : verify_data_block env bs.st h pos bs.max_ra_pages with ⟨out, st1, vtr⟩
  have hlog := verify_data_block_verified_log env bs.st h pos bs.max_ra_pages
  rw [hr] at hlog
  dsimp only at hlog
  rw [batch_verify_block_eq env bs h pos out st1 vtr hr]
  dsimp only [Trace.append]
  rw [hlog]
  simp

theorem all_dropLast_append (l1 l2 : List (Nat × Bool))
    (h1 : l1.all (·.2) = true) (h2 : l2.dropLast.all (·.2) = true) :
    (l1 ++ l2).dropLast.all (·.2) = true := by
  cases l2 with
  | nil =>
    simp only [List.append_nil]
    rw [List.all_eq_true] at h1 ⊢
    intro x hx
    exact h1 x (List.dropLast_subset _ hx)
  | cons a t =>
    rw [List.dropLast_append_cons, List.all_append]
    rw [h1, h2]
    rfl

theorem batch_verify_block_pending (env : VerityEnv) (bs : BatchState)
    (h : Bytes) (pos : Nat) :
    (batch_verify_block env bs h pos).2.pending = bs.pending ∧
    (batch_verify_block env bs h pos).2.max_ra_pages = bs.max_ra_pages := by
  rcases hr : verify_data_block env bs.st h pos bs.max_ra_pages with ⟨out, st1, vtr⟩
  rw [batch_verify_block_eq env bs h pos out st1 vtr hr]
  exact ⟨rfl, rfl⟩

theorem loop_verified_log (env : VerityEnv) (mb : Bool) (dp : DataPage) :
    ∀ (fuel pos offset : Nat) (bs : BatchState),
    ∃ dl : List (Nat × Bool),
      (fsverity_add_data_blocks_loop env mb dp fuel pos offset bs).2.tr.verified
        = bs.tr.verified ++ dl ∧
      dl.dropLast.all (·.2) = true ∧
      ((fsverity_add_data_blocks_loop env mb dp fuel pos offset bs).1 = true →
        dl.all (·.2) = true ∧
        dl.length
          + pendCount (fsverity_add_data_blocks_loop env mb dp fuel pos offset bs).2.pending
          = fuel + pendCount bs.pending) ∧
      ((fsverity_add_data_blocks_loop env mb dp fuel pos offset bs).1 = false →
        dl.all (·.2) = true →
        dl.length
          + pendCount (fsverity_add_data_blocks_loop env mb dp fuel pos offset bs).2.pending
          + 1
          ≤ fuel + pendCount bs.pending) := by
  intro fuel
  induction fuel with
  | zero =>
    intro pos offset bs
    refine ⟨[], by simp [fsverity_add_data_blocks_loop], by simp, ?_, ?_⟩
    · intro _
      simp [fsverity_add_data_blocks_loop]
    · intro hres
      simp [fsverity_add_data_blocks_loop] at hres
  | succ fuel ih =>
    intro pos offset bs
    unfold fsverity_add_data_blocks_loop
    cases hmb : mb with
    | true =>
      rw [hmb] at ih
      cases hp : bs.pending with
      | some pending =>
        simp only [hp]
        cases hh : fsverity_hash_2_blocks env pending.1 dp.bytes with
        | none =>
          simp only [hh]
          refine ⟨[], by simp [Trace.bump_data_verified], by simp, ?_, ?_⟩
          · intro hres
            simp at hres
          · intro _ _
            show ([] : List (Nat × Bool)).length
                + pendCount (none : Option (Bytes × Nat)) + 1
              ≤ fuel + 1 + pendCount (some pending)
            simp only [pendCount, List.length_nil]
            omega
        | some hs =>
          simp only [hh]
          rcases hr1 : batch_verify_block env
            ⟨bs.st, none, bs.max_ra_pages, bs.tr.bump_data 1 2⟩ hs.1 pending.2 with ⟨ok1, c1⟩
          have hlog1 := batch_verify_block_verified_log env
            ⟨bs.st, none, bs.max_ra_pages, bs.tr.bump_data 1 2⟩ hs.1 pending.2
          rw [hr1] at hlog1
          dsimp only at hlog1
          rw [Trace.bump_data_verified] at hlog1
          have hpend1 := batch_verify_block_pending env
            ⟨bs.st, none, bs.max_ra_pages, bs.tr.bump_data 1 2⟩ hs.1 pending.2
          rw [hr1] at hpend1
          dsimp only at hpend1
          cases ok1 with
          | false =>
            simp only [Bool.not_false, Bool.not_true, Bool.false_eq_true, if_true, if_false]
            refine ⟨[(pending.2, false)], by simpa using hlog1, by simp, ?_, ?_⟩
            · intro hres
              simp at hres
            · intro _ hall
              simp at hall
          | true =>
            simp only [Bool.not_false, Bool.not_true, Bool.false_eq_true, if_true, if_false]
            rcases hr2 : batch_verify_block env c1 hs.2 pos with ⟨ok2, c2⟩
            have hlog2 := batch_verify_block_verified_log env c1 hs.2 pos
            rw [hr2] at hlog2
            dsimp only at hlog2
            rw [hlog1] at hlog2
            have hpend2 := batch_verify_block_pending env c1 hs.2 pos
            rw [hr2] at hpend2
            dsimp only at hpend2
            cases ok2 with
            | false =>
              simp only [Bool.not_false, Bool.not_true, Bool.false_eq_true, if_true, if_false]
              refine ⟨[(pending.2, true), (pos, false)], by simpa using hlog2,
                by simp, ?_, ?_⟩
              · intro hres
                simp at hres
              · intro _ hall
                simp at hall
            | true =>
              simp only [Bool.not_false, Bool.not_true, Bool.false_eq_true, if_true, if_false]
              obtain ⟨dl, hv, hd, ht, hf⟩ :=
                ih (pos + env.tree_params.block_size) (offset + env.tree_params.block_size) c2
              refine ⟨(pending.2, true) :: (pos, true) :: dl, ?_, ?_, ?_, ?_⟩
              · rw [hv, hlog2]
                simp
              · apply all_dropLast_append [(pending.2, true), (pos, true)] dl (by simp) hd
              · intro hres
                obtain ⟨ha, hl⟩ := ht hres
                refine ⟨by simp [ha], ?_⟩
                rw [hpend2.1, hpend1.1] at hl
                simp only [pendCount] at hl ⊢
                simp only [List.length_cons]
                omega
              · intro hres hall
                have hall2 : dl.all (·.2) = true := by
                  simp at hall
                  simp [hall]
                have hle := hf hres hall2
                rw [hpend2.1, hpend1.1] at hle
                simp only [pendCount] at hle ⊢
                simp only [List.length_cons]
                omega
      | none =>
        simp only [hp]
        obtain ⟨dl, hv, hd, ht, hf⟩ :=
          ih (pos + env.tree_params.block_size) (offset + env.tree_params.block_size)
            ⟨bs.st, some (dp.bytes, pos), bs.max_ra_pages, bs.tr.bump_data 1 0⟩
        refine ⟨dl, by simpa [Trace.bump_data_verified] using hv, hd, ?_, ?_⟩
        · intro hres
          obtain ⟨ha, hl⟩ := ht hres
          refine ⟨ha, ?_⟩
          simp only [pendCount] at hl ⊢
          omega
        · intro hres hall
          have hle := hf hres hall
          simp only [pendCount] at hle ⊢
          omega
    | false =>
      rw [hmb] at ih
      cases hh : env.hash_block (dp.bytes.take env.tree_params.block_size) with
      | none =>
        simp only [hh]
        refine ⟨[], by simp [Trace.bump_data_verified], by simp, ?_, ?_⟩
        · intro hres
          simp at hres
        · intro _ _
          show 0 + pendCount bs.pending + 1 ≤ fuel + 1 + pendCount bs.pending
          omega
      | some h =>
        simp only [hh]
        rcases hr : batch_verify_block env
          ⟨bs.st, bs.pending, bs.max_ra_pages, bs.tr.bump_data 1 1⟩ h pos with ⟨ok, c1⟩
        have hlog := batch_verify_block_verified_log env
          ⟨bs.st, bs.pending, bs.max_ra_pages, bs.tr.bump_data 1 1⟩ h pos
        rw [hr] at hlog
        dsimp only at hlog
        rw [Trace.bump_data_verified] at hlog
        have hpend := batch_verify_block_pending env
          ⟨bs.st, bs.pending, bs.max_ra_pages, bs.tr.bump_data 1 1⟩ h pos
        rw [hr] at hpend
        dsimp only at hpend
        cases ok with
        | false =>
          simp only [Bool.not_false, Bool.not_true, Bool.false_eq_true, if_true, if_false]
          refine ⟨[(pos, false)], by simpa using hlog, by simp, ?_, ?_⟩
          · intro hres
            simp at hres
          · intro _ hall
            simp at hall
        | true =>
          simp only [Bool.not_false, Bool.not_true, Bool.false_eq_true, if_true, if_false]
          obtain ⟨dl, hv, hd, ht, hf⟩ :=
            ih (pos + env.tree_params.block_size) (offset + env.tree_params.block_size) c1
          refine ⟨(pos, true) :: dl, ?_, ?_, ?_, ?_⟩
          · rw [hv, hlog]
            simp
          · exact all_dropLast_append [(pos, true)] dl (by simp) hd
          · intro hres
            obtain ⟨ha, hl⟩ := ht hres
            refine ⟨by simp [ha], ?_⟩
            rw [hpend.1] at hl
            simp only [List.length_cons]
            omega
          · intro hres hall
            have hall2 : dl.all (·.2) = true := by
              simp at hall
              simp [hall]
            have hle := hf hres hall2
            rw [hpend.1] at hle
            simp only [List.length_cons]
            omega

theorem finish_verified_log (env : VerityEnv) (bs : BatchState) :
    ∃ dl : List (Nat × Bool),
      (fsverity_finish_verification env bs).2.tr.verified = bs.tr.verified ++ dl ∧
      dl.dropLast.all (·.2) = true ∧
      ((fsverity_finish_verification env bs).1 = true →
        dl.all (·.2) = true ∧ dl.length = pendCount bs.pending) ∧
      ((fsverity_finish_verification env bs).1 = false →
        dl.all (·.2) = true → dl.length + 1 ≤ pendCount bs.pending) := by
  unfold fsverity_finish_verification
  cases hp : bs.pending with
  | none =>
    refine ⟨[], by simp, by simp, ?_, ?_⟩
    · intro _
      simp [pendCount]
    · intro hres
      simp at hres
  | some pending =>
    cases hh : env.hash_block (pending.1.take env.tree_params.block_size) with
    | none =>
      simp only [hh]
      refine ⟨[], by simp [Trace.bump_data_verified], by simp, ?_, ?_⟩
      · intro hres
        simp at hres
      · intro _ _
        simp [pendCount]
    | some h =>
      simp only [hh]
      rcases hr : batch_verify_block env
        ⟨bs.st, none, bs.max_ra_pages, bs.tr.bump_data 0 1⟩ h pending.2 with ⟨ok, c1⟩
      have hlog := batch_verify_block_verified_log env
        ⟨bs.st, none, bs.max_ra_pages, bs.tr.bump_data 0 1⟩ h pending.2
      rw [hr] at hlog
      dsimp only at hlog
      rw [Trace.bump_data_verified] at hlog
      cases ok with
      | false =>
        refine ⟨[(pending.2, false)], by simpa using hlog, by simp, ?_, ?_⟩
        · intro hres
          simp at hres
        · intro _ hall
          simp at hall
      | true =>
        refine ⟨[(pending.2, true)], by simpa using hlog, by simp, ?_, ?_⟩
        · intro _
          simp [pendCount]
        · intro hres
          simp at hres

theorem abort_verified_log (bs : BatchState) :
    (fsverity_abort_verification bs).tr.verified = bs.tr.verified := by
  unfold fsverity_abort_verification
  cases hp : bs.pending with
  | none => rfl
  | some pending => simp [Trace.bump_data_verified]

theorem batch_args_ok_iff (p : MerkleTreeParams) (dp : DataPage) (len offset : Nat) :
    fsverity_batch_args_ok p dp len offset = true ↔
      ((len = 0 || !decide ((len ||| offset) % p.block_size = 0)) = false ∧
       (!dp.locked || dp.uptodate) = false) := by
  unfold fsverity_batch_args_ok
  cases hl : dp.locked <;> cases hu : dp.uptodate <;> by_cases h0 : len = 0 <;>
    by_cases ha : (len ||| offset) % p.block_size = 0 <;> simp [h0, ha]

/-! ## Claim C6 -/

/-- Claim C6: the batch verdict of `fsverity_verify_blocks` is `true` iff
the entry checks pass, all `len / block_size` blocks were verified, and
every logged verification result is `true` (every block authenticated);
and the verification log never contains a failure followed by another
verification — the first failing block aborts the batch with no further
blocks verified. -/
theorem C6_batch_valid_iff_all_blocks_authentic (env : VerityEnv) (st : VerityState)
    (dp : DataPage) (len offset : Nat) :
    ((fsverity_verify_blocks env st dp len offset).1 = true ↔
      (fsverity_batch_args_ok env.tree_params dp len offset = true ∧
       (fsverity_verify_blocks env st dp len offset).2.tr.verified.length
         = len / env.tree_params.block_size ∧
       (fsverity_verify_blocks env st dp len offset).2.tr.verified.all (·.2) = true)) ∧
    (fsverity_verify_blocks env st dp len offset).2.tr.verified.dropLast.all (·.2)
      = true := by
  unfold fsverity_verify_blocks fsverity_verify_blocks_mode fsverity_add_data_blocks_mode
  by_cases hc1 : (len = 0 || !decide ((len ||| offset) % env.tree_params.block_size = 0)) = true
  · simp only [hc1, if_true, Bool.not_false, abort_verified_log]
    constructor
    · constructor
      · intro hres
        simp at hres
      · rintro ⟨hargs, _, _⟩
        obtain ⟨h1, _⟩ := (batch_args_ok_iff env.tree_params dp len offset).mp hargs
        rw [hc1] at h1
        exact absurd h1 (by simp)
    · simp [abort_verified_log]
  · have hc1x : (len = 0 || !decide ((len ||| offset) % env.tree_params.block_size = 0))
        = false := Bool.eq_false_iff.mpr hc1
    simp only [hc1x, Bool.false_eq_true, if_false]
    by_cases hc2 : (!dp.locked || dp.uptodate) = true
    · simp only [hc2, if_true]
      constructor
      · constructor
        · intro hres
          simp at hres
        · rintro ⟨hargs, _, _⟩
          obtain ⟨_, h2⟩ := (batch_args_ok_iff env.tree_params dp len offset).mp hargs
          rw [hc2] at h2
          exact absurd h2 (by simp)
      · simp [abort_verified_log]
    · have hc2x : (!dp.locked || dp.uptodate) = false := Bool.eq_false_iff.mpr hc2
      simp only [hc2x, Bool.false_eq_true, if_false]
      have hargs : fsverity_batch_args_ok env.tree_params dp len offset = true :=
        (batch_args_ok_iff env.tree_params dp len offset).mpr ⟨hc1x, hc2x⟩
      obtain ⟨dl, hv, hd, ht, hf⟩ := loop_verified_log env
        env.tree_params.supports_multibuffer dp (len / env.tree_params.block_size)
        (dp.index * env.tree_params.page_size + offset) offset ⟨st, none, 0, {}⟩
      rcases hr : fsverity_add_data_blocks_loop env env.tree_params.supports_multibuffer dp
        (len / env.tree_params.block_size)
        (dp.index * env.tree_params.page_size + offset) offset
        ⟨st, none, 0, {}⟩ with ⟨ok, bs1⟩
      rw [hr] at hv ht hf
      dsimp only at hv ht hf
      have hv2 : bs1.tr.verified = dl := by simpa using hv
      have hpb : pendCount bs1.pending ≤ 1 := by
        cases bs1.pending <;> simp [pendCount]
      have h00 : pendCount (none : Option (Bytes × Nat)) = 0 := rfl
      cases ok with
      | false =>
        simp only [Bool.not_false, if_true]
        rw [abort_verified_log, hv2]
        constructor
        · constructor
          · intro hres
            simp at hres
          · rintro ⟨_, hlen, hall⟩
            have hle := hf rfl hall
            rw [h00] at hle
            omega
        · exact hd
      | true =>
        simp only [Bool.not_true, Bool.false_eq_true, if_false]
        obtain ⟨ha, hlen⟩ := ht rfl
        rw [h00] at hlen
        obtain ⟨dl2, hv3, hd2, ht2, hf2⟩ := finish_verified_log env bs1
        rw [hv3, hv2]
        constructor
        · constructor
          · intro hres
            obtain ⟨ha2, hlen2⟩ := ht2 hres
            refine ⟨hargs, ?_, ?_⟩
            · rw [List.length_append, hlen2]
              omega
            · rw [List.all_append, ha, ha2]
              rfl
          · rintro ⟨_, hlen2, hall2⟩
            by_cases hfin : (fsverity_finish_verification env bs1).1 = true
            · exact hfin
            · exfalso
              have hfin2 : (fsverity_finish_verification env bs1).1 = false :=
                Bool.eq_false_iff.mpr hfin
              rw [List.all_append] at hall2
              have hall3 : (dl.all (·.2)) = true ∧ (dl2.all (·.2)) = true := by
                rw [Bool.and_eq_true] at hall2
                exact hall2
              have hle2 := hf2 hfin2 hall3.2
              rw [List.length_append] at hlen2
              omega
        · exact all_dropLast_append dl dl2 ha hd2

/-! ## Pairing equivalence lemmas -/

theorem batch_verify_block_congr (env : VerityEnv) (b1 b2 : BatchState)
    (h : Bytes) (pos : Nat)
    (hst : b1.st = b2.st) (hmra : b1.max_ra_pages = b2.max_ra_pages)
    (hver : b1.tr.verified = b2.tr.verified) :
    (batch_verify_block env b1 h pos).1 = (batch_verify_block env b2 h pos).1 ∧
    (batch_verify_block env b1 h pos).2.st = (batch_verify_block env b2 h pos).2.st ∧
    (batch_verify_block env b1 h pos).2.tr.verified
      = (batch_verify_block env b2 h pos).2.tr.verified ∧
    (batch_verify_block env b1 h pos).2.pending = b1.pending ∧
    (batch_verify_block env b2 h pos).2.pending = b2.pending ∧
    (batch_verify_block env b1 h pos).2.max_ra_pages = b1.max_ra_pages ∧
    (batch_verify_block env b2 h pos).2.max_ra_pages = b2.max_ra_pages := by
  rcases hr : verify_data_block env b2.st h pos b2.max_ra_pages with ⟨out, st1, vtr⟩
  have hr1 : verify_data_block env b1.st h pos b1.max_ra_pages = (out, st1, vtr) := by
    rw [hst, hmra]
    exact hr
  rw [batch_verify_block_eq env b1 h pos out st1 vtr hr1,
      batch_verify_block_eq env b2 h pos out st1 vtr hr]
  refine ⟨rfl, rfl, ?_, rfl, rfl, rfl, rfl⟩
  dsimp only [Trace.append]
  rw [hver]

/-- The tail of `fsverity_verify_blocks_mode` after the argument checks:
run the block loop, abort on failure, finish otherwise. -/
def run_mode (env : VerityEnv) (mb : Bool) (dp : DataPage)
    (fuel pos offset : Nat) (bs : BatchState) : Bool × BatchState :=
  let r := fsverity_add_data_blocks_loop env mb dp fuel pos offset bs
  if !r.1 then (false, fsverity_abort_verification r.2)
  else fsverity_finish_verification env r.2

theorem loop_pairing_equiv (env : VerityEnv) (dp : DataPage) (mra : Nat)
    (htot : ∀ b, (env.hash_block b).isSome = true) :
    ∀ (fuel pos offset : Nat) (st : VerityState) (tr tr' : Trace),
    tr.verified = tr'.verified →
    (run_mode env true dp fuel pos offset ⟨st, none, mra, tr⟩).1
      = (run_mode env false dp fuel pos offset ⟨st, none, mra, tr'⟩).1 ∧
    (run_mode env true dp fuel pos offset ⟨st, none, mra, tr⟩).2.st
      = (run_mode env false dp fuel pos offset ⟨st, none, mra, tr'⟩).2.st ∧
    (run_mode env true dp fuel pos offset ⟨st, none, mra, tr⟩).2.tr.verified
      = (run_mode env false dp fuel pos offset ⟨st, none, mra, tr'⟩).2.tr.verified := by
  intro fuel
  induction fuel using Nat.twoStepInduction with
  | zero =>
    intro pos offset st tr tr' hver
    unfold run_mode fsverity_add_data_blocks_loop
    simp only [Bool.not_true, Bool.false_eq_true, if_false]
    unfold fsverity_finish_verification
    exact ⟨rfl, rfl, hver⟩
  | one =>
    intro pos offset st tr tr' hver
    obtain ⟨h, hh⟩ := Option.isSome_iff_exists.mp
      (htot (dp.bytes.take env.tree_params.block_size))
    unfold run_mode
    unfold fsverity_add_data_blocks_loop
    unfold fsverity_add_data_blocks_loop
    unfold fsverity_finish_verification
    simp only [hh, Bool.not_true, Bool.false_eq_true, if_false]
    have hcongr := batch_verify_block_congr env
      ⟨st, none, mra, (tr.bump_data 1 0).bump_data 0 1⟩
      ⟨st, none, mra, tr'.bump_data 1 1⟩ h pos rfl rfl
      (by simp [Trace.bump_data_verified, hver])
    rcases hr1 : batch_verify_block env
      ⟨st, none, mra, (tr.bump_data 1 0).bump_data 0 1⟩ h pos with ⟨ok1, c1⟩
    rcases hr2 : batch_verify_block env
      ⟨st, none, mra, tr'.bump_data 1 1⟩ h pos with ⟨ok2, c2⟩
    rw [hr1, hr2] at hcongr
    dsimp only at hcongr
    obtain ⟨hok, hst2, hver2, hp1, hp2, hm1, hm2⟩ := hcongr
    subst hok
    cases ok1 with
    | false =>
      simp only [Bool.not_true, Bool.not_false, if_true, Bool.false_eq_true, if_false]
      unfold fsverity_abort_verification
      rw [hp2]
      exact ⟨by trivial, hst2, hver2⟩
    | true =>
      simp only [Bool.not_true, Bool.not_false, if_true, Bool.false_eq_true, if_false]
      rw [hp2]
      exact ⟨by trivial, hst2, hver2⟩
  | more n ihn _ =>
    intro pos offset st tr tr' hver
    obtain ⟨h, hh⟩ := Option.isSome_iff_exists.mp
      (htot (dp.bytes.take env.tree_params.block_size))
    have hh2 : fsverity_hash_2_blocks env dp.bytes dp.bytes = some (h, h) := by
      unfold fsverity_hash_2_blocks
      rw [hh]
    unfold run_mode
    unfold fsverity_add_data_blocks_loop
    unfold fsverity_add_data_blocks_loop
    simp only [hh, hh2]
    have hcongr := batch_verify_block_congr env
      ⟨st, none, mra, (tr.bump_data 1 0).bump_data 1 2⟩
      ⟨st, none, mra, tr'.bump_data 1 1⟩ h pos rfl rfl
      (by simp [Trace.bump_data_verified, hver])
    rcases hr1 : batch_verify_block env
      ⟨st, none, mra, (tr.bump_data 1 0).bump_data 1 2⟩ h pos with ⟨ok1, c1⟩
    rcases hr2 : batch_verify_block env
      ⟨st, none, mra, tr'.bump_data 1 1⟩ h pos with ⟨ok2, c2⟩
    rw [hr1, hr2] at hcongr
    dsimp only at hcongr
    obtain ⟨hok, hst2, hver2, hp1, hp2, hm1, hm2⟩ := hcongr
    subst hok
    cases ok1 with
    | false =>
      simp only [Bool.not_true, Bool.not_false, if_true, Bool.false_eq_true, if_false]
      unfold fsverity_abort_verification
      rw [hp1, hp2]
      exact ⟨by trivial, hst2, hver2⟩
    | true =>
      simp only [Bool.not_true, Bool.not_false, if_true, Bool.false_eq_true, if_false]
      have hcongr2 := batch_verify_block_congr env c1
        ⟨c2.st, c2.pending, c2.max_ra_pages, c2.tr.bump_data 1 1⟩
        h (pos + env.tree_params.block_size) hst2 (by rw [hm1, hm2])
        (by simp [Trace.bump_data_verified, hver2])
      rcases hs1 : batch_verify_block env c1 h (pos + env.tree_params.block_size)
        with ⟨okb1, d1⟩
      rcases hs2 : batch_verify_block env
        ⟨c2.st, c2.pending, c2.max_ra_pages, c2.tr.bump_data 1 1⟩
        h (pos + env.tree_params.block_size) with ⟨okb2, d2⟩
      rw [hs1, hs2] at hcongr2
      dsimp only at hcongr2
      obtain ⟨hokb, hst3, hver3, hq1, hq2, hn1, hn2⟩ := hcongr2
      subst hokb
      cases okb1 with
      | false =>
        simp only [Bool.not_true, Bool.not_false, if_true, Bool.false_eq_true, if_false]
        unfold fsverity_abort_verification
        rw [hq1, hp1, hq2, hp2]
        exact ⟨by trivial, hst3, hver3⟩
      | true =>
        simp only [Bool.not_true, Bool.not_false, if_true, Bool.false_eq_true, if_false]
        have hd1 : d1 = ⟨d1.st, none, mra, d1.tr⟩ := by
          have e1 : d1.pending = none := by rw [hq1, hp1]
          have e2 : d1.max_ra_pages = mra := by rw [hn1, hm1]
          rw [← e1, ← e2]
        have hd2 : d2 = ⟨d2.st, none, mra, d2.tr⟩ := by
          have e1 : d2.pending = none := by rw [hq2, hp2]
          have e2 : d2.max_ra_pages = mra := by rw [hn2, hm2]
          rw [← e1, ← e2]
        rw [hd1, hd2, hst3]
        exact ihn (pos + env.tree_params.block_size + env.tree_params.block_size)
          (offset + env.tree_params.block_size + env.tree_params.block_size)
          d2.st d1.tr d2.tr hver3

/-! ## Claim C5 -/

/-- Claim C5: with a hash algorithm supporting combined hashing (modelled
per the spec as producing the two blocks' independent digests), running
the batch pipeline with pairing — including hashing and verifying a
leftover pending block alone at the end of the run — produces the same
verdict, the same final shared tracker state, and the same block-by-block
verification log as verifying the blocks one at a time without pairing. -/
theorem C5_pairing_equivalent_to_sequential (env : VerityEnv) (st : VerityState)
    (dp : DataPage) (len offset : Nat)
    (htot : ∀ b, (env.hash_block b).isSome = true) :
    (fsverity_verify_blocks_mode env true st dp len offset).1
      = (fsverity_verify_blocks_mode env false st dp len offset).1 ∧
    (fsverity_verify_blocks_mode env true st dp len offset).2.st
      = (fsverity_verify_blocks_mode env false st dp len offset).2.st ∧
    (fsverity_verify_blocks_mode env true st dp len offset).2.tr.verified
      = (fsverity_verify_blocks_mode env false st dp len offset).2.tr.verified := by
  unfold fsverity_verify_blocks_mode fsverity_add_data_blocks_mode
  by_cases hc1 : (len = 0 || !decide ((len ||| offset) % env.tree_params.block_size = 0))
      = true
  · simp only [hc1, if_true, Bool.not_false]
    exact ⟨by trivial, by trivial, by trivial⟩
  · have hc1x := Bool.eq_false_iff.mpr hc1
    simp only [hc1x, Bool.false_eq_true, if_false]
    by_cases hc2 : (!dp.locked || dp.uptodate) = true
    · simp only [hc2, if_true, Bool.not_false]
      exact ⟨by trivial, by trivial, by trivial⟩
    · have hc2x := Bool.eq_false_iff.mpr hc2
      simp only [hc2x, Bool.false_eq_true, if_false]
      exact loop_pairing_equiv env dp 0 htot (len / env.tree_params.block_size)
        (dp.index * env.tree_params.page_size + offset) offset st {} {} rfl

/-- A locked, not-uptodate data page for concrete batch runs. -/
def bdp : DataPage := ⟨0, [1, 2, 3, 4, 5, 6, 7, 8], true, false⟩

/-- Witness for C5: the concrete bitmap-mode environment (total hash
function) on a two-block page. -/
theorem C5_pairing_equivalent_to_sequential_witness :
    (fsverity_verify_blocks_mode benv true bstate bdp 8 0).1
      = (fsverity_verify_blocks_mode benv false bstate bdp 8 0).1 ∧
    (fsverity_verify_blocks_mode benv true bstate bdp 8 0).2.st
      = (fsverity_verify_blocks_mode benv false bstate bdp 8 0).2.st ∧
    (fsverity_verify_blocks_mode benv true bstate bdp 8 0).2.tr.verified
      = (fsverity_verify_blocks_mode benv false bstate bdp 8 0).2.tr.verified :=
  C5_pairing_equivalent_to_sequential benv bstate bdp 8 0 (fun _ => rfl)

/-! ## Tracker state lemmas for re-verification -/

theorem is_hbv_true_facts (env : VerityEnv) (st : VerityState) (hp hb : Nat)
    (h : (is_hash_block_verified env st hp hb).1 = true) :
    (is_hash_block_verified env st hp hb).2 = st ∧
    st.checked hp = true ∧
    (env.has_bitmap = true → st.bitmap hb = true) := by
  cases hbm : env.has_bitmap with
  | false =>
    have hck := h
    simp [is_hash_block_verified, hbm] at hck
    refine ⟨?_, hck, fun hx => absurd hx (by simp [hbm])⟩
    simp [is_hash_block_verified, hbm]
  | true =>
    cases hc : st.checked hp with
    | false =>
      exfalso
      have hck := h
      simp [is_hash_block_verified, hbm, hc] at hck
    | true =>
      have hbit := h
      simp [is_hash_block_verified, hbm, hc] at hbit
      refine ⟨?_, by trivial, fun _ => hbit⟩
      simp [is_hash_block_verified, hbm, hc]

theorem is_hbv_of_trusted (env : VerityEnv) (st : VerityState) (hp hb : Nat)
    (h1 : st.checked hp = true)
    (h2 : env.has_bitmap = true → st.bitmap hb = true) :
    is_hash_block_verified env st hp hb = (true, st) := by
  cases hbm : env.has_bitmap with
  | false => simp [is_hash_block_verified, hbm, h1]
  | true => simp [is_hash_block_verified, hbm, h1, h2 hbm]

theorem is_hbv_checked_mono (env : VerityEnv) (st : VerityState) (hp hb p : Nat)
    (h : st.checked p = true) :
    ((is_hash_block_verified env st hp hb).2).checked p = true := by
  cases hbm : env.has_bitmap with
  | false => simp [is_hash_block_verified, hbm, h]
  | true =>
    cases hc : st.checked hp with
    | true => simp [is_hash_block_verified, hbm, hc, h]
    | false => simp [is_hash_block_verified, hbm, hc, set_bit, h]

theorem is_hbv_bitmap_checked_after (env : VerityEnv) (st : VerityState) (hp hb : Nat)
    (hbm : env.has_bitmap = true) :
    ((is_hash_block_verified env st hp hb).2).checked hp = true := by
  cases hc : st.checked hp with
  | true => simp [is_hash_block_verified, hbm, hc]
  | false => simp [is_hash_block_verified, hbm, hc, set_bit]

theorem is_hbv_bitmap_pres (env : VerityEnv) (st : VerityState) (hb i : Nat)
    (hc : st.checked (i >>> env.tree_params.log_blocks_per_page) = true) :
    ((is_hash_block_verified env st (hb >>> env.tree_params.log_blocks_per_page) hb).2).bitmap i
      = st.bitmap i := by
  cases hbm : env.has_bitmap with
  | false => simp [is_hash_block_verified, hbm]
  | true =>
    cases hcp : st.checked (hb >>> env.tree_params.log_blocks_per_page) with
    | true => simp [is_hash_block_verified, hbm, hcp]
    | false =>
      have hres : (is_hash_block_verified env st
          (hb >>> env.tree_params.log_blocks_per_page) hb).2.bitmap
          = (List.range env.tree_params.blocks_per_page).foldl
              (fun f j => clear_bit (round_down hb env.tree_params.blocks_per_page + j) f)
              st.bitmap := by
        simp [is_hash_block_verified, hbm, hcp]
      rw [hres, foldl_clear_bit_eval, if_neg]
      intro hin
      have hbpp : (0 : Nat) < 2 ^ env.tree_params.log_blocks_per_page :=
        Nat.pos_pow_of_pos _ (by norm_num)
      have hdd := Nat.div_add_mod hb (2 ^ env.tree_params.log_blocks_per_page)
      have hbb : env.tree_params.blocks_per_page
          = 2 ^ env.tree_params.log_blocks_per_page := rfl
      have hbase : round_down hb env.tree_params.blocks_per_page
          = 2 ^ env.tree_params.log_blocks_per_page
            * (hb / 2 ^ env.tree_params.log_blocks_per_page) := by
        rw [round_down, hbb]
        omega
      rw [hbase, hbb] at hin
      have hieq : i / 2 ^ env.tree_params.log_blocks_per_page
          = hb / 2 ^ env.tree_params.log_blocks_per_page :=
        (div_eq_iff_range _ _ _ hbpp).mpr (by omega)
      rw [Nat.shiftRight_eq_div_pow] at hc hcp
      rw [hieq] at hc
      rw [hc] at hcp
      exact Bool.noConfusion hcp

theorem ascend_checked_mono (env : VerityEnv) (mra : Nat) :
    ∀ (r hidx level : Nat) (stack : List HashBlockLoc) (st : VerityState) (tr : Trace)
    (p : Nat), st.checked p = true →
    ((ascend env mra hidx r level stack st tr).2.1).checked p = true := by
  intro r
  induction r with
  | zero =>
    intro hidx level stack st tr p h
    simpa [ascend] using h
  | succ r ih =>
    intro hidx level stack st tr p h
    unfold ascend
    cases hread : env.read_merkle_tree_page (step_hpage_idx env hidx level) with
    | none => simpa using h
    | some pg =>
      cases hv : (is_hash_block_verified env st (step_hpage_idx env hidx level)
          (step_hblock_idx env hidx level)).1 with
      | true =>
        simp only [hv, if_true]
        exact is_hbv_checked_mono env st _ _ p h
      | false =>
        simp only [hv, Bool.false_eq_true, if_false]
        exact ih _ _ _ _ _ p (is_hbv_checked_mono env st _ _ p h)

theorem ascend_bitmap_pres (env : VerityEnv) (mra : Nat) :
    ∀ (r hidx level : Nat) (stack : List HashBlockLoc) (st : VerityState) (tr : Trace)
    (i : Nat), st.checked (i >>> env.tree_params.log_blocks_per_page) = true →
    ((ascend env mra hidx r level stack st tr).2.1).bitmap i = st.bitmap i := by
  intro r
  induction r with
  | zero =>
    intro hidx level stack st tr i h
    simp [ascend]
  | succ r ih =>
    intro hidx level stack st tr i h
    unfold ascend
    cases hread : env.read_merkle_tree_page (step_hpage_idx env hidx level) with
    | none => simp
    | some pg =>
      cases hv : (is_hash_block_verified env st (step_hpage_idx env hidx level)
          (step_hblock_idx env hidx level)).1 with
      | true =>
        simp only [hv, if_true]
        exact is_hbv_bitmap_pres env st _ i h
      | false =>
        simp only [hv, Bool.false_eq_true, if_false]
        rw [ih _ _ _ _ _ i (is_hbv_checked_mono env st _ _ _ h)]
        exact is_hbv_bitmap_pres env st _ i h

theorem range_reverse_map_getLast (f : Nat → HashBlockLoc) (n : Nat) (hn : 0 < n) :
    ((List.range n).reverse.map f).getLast? = some (f 0) := by
  rw [List.map_reverse, List.getLast?_reverse]
  cases n with
  | zero => omega
  | succ k =>
    rw [List.range_succ_eq_map]
    simp

theorem ascend_state_facts (env : VerityEnv) (mra hidx0 r : Nat)
    (st : VerityState) (tr : Trace) (want : Bytes) (stk : List HashBlockLoc)
    (stop : Nat) (st1 : VerityState) (tr1 : Trace)
    (hlr : r + 1 = env.tree_params.num_levels)
    (h : ascend env mra hidx0 (r + 1) 0 [] st tr
          = (.stopped want stk stop, st1, tr1)) :
    (∃ pg, env.read_merkle_tree_page (step_hpage_idx env hidx0 0) = some pg) ∧
    (stop = 0 → st1 = st ∧ st.checked (step_hpage_idx env hidx0 0) = true ∧
      (env.has_bitmap = true → st.bitmap (step_hblock_idx env hidx0 0) = true)) ∧
    (env.has_bitmap = true → st1.checked (step_hpage_idx env hidx0 0) = true) := by
  cases hread : env.read_merkle_tree_page (step_hpage_idx env hidx0 0) with
  | none =>
    unfold ascend at h
    simp only [hread, Prod.mk.injEq] at h
    exact AscentResult.noConfusion h.1
  | some pg =>
    unfold ascend at h
    cases hv : (is_hash_block_verified env st (step_hpage_idx env hidx0 0)
        (step_hblock_idx env hidx0 0)).1 with
    | true =>
      simp only [hread, hv, if_true, Prod.mk.injEq, AscentResult.stopped.injEq] at h
      obtain ⟨⟨hw, hstk, hstop⟩, hst, htr⟩ := h
      obtain ⟨hfix, hc, hbit⟩ := is_hbv_true_facts env st _ _ hv
      refine ⟨⟨pg, rfl⟩, ?_, ?_⟩
      · intro _
        rw [← hst, hfix]
        exact ⟨rfl, hc, hbit⟩
      · intro hbm
        rw [← hst, hfix]
        exact hc
    | false =>
      simp only [hread, hv, Bool.false_eq_true, if_false] at h
      refine ⟨⟨pg, rfl⟩, ?_, ?_⟩
      · intro hstop0
        exfalso
        have hrw : hidx0 >>> env.tree_params.log_arity
            = hidx_at env.tree_params hidx0 1 := by
          unfold hidx_at
          rw [one_mul]
        rw [hrw] at h
        have hge := (ascend_spec env mra hidx0 r 1 (by omega) _ _ _
          want stk stop st1 tr1 h).1.1
        omega
      · intro hbm
        have hS1 : ((is_hash_block_verified env st (step_hpage_idx env hidx0 0)
            (step_hblock_idx env hidx0 0)).2).checked (step_hpage_idx env hidx0 0)
            = true := is_hbv_bitmap_checked_after env st _ _ hbm
        have hcc := congrArg (fun x => (x.2.1).checked (step_hpage_idx env hidx0 0)) h
        dsimp only at hcc
        rw [ascend_checked_mono env mra r _ _ _ _ _ _ hS1] at hcc
        exact hcc.symm

theorem mem_of_getLast_some {α : Type} (l : List α) (a : α)
    (h : l.getLast? = some a) : a ∈ l := by
  obtain ⟨l2, rfl⟩ := List.getLast?_eq_some_iff.mp h
  simp

theorem hpage_idx_at_zero (env : VerityEnv) (hidx0 : Nat) :
    hpage_idx_at env hidx0 0 = step_hpage_idx env hidx0 0 := by
  unfold hpage_idx_at
  rw [hidx_at_zero]

theorem hblock_idx_at_zero (env : VerityEnv) (hidx0 : Nat) :
    hblock_idx_at env hidx0 0 = step_hblock_idx env hidx0 0 := by
  unfold hblock_idx_at
  rw [hidx_at_zero]

theorem verify_authentic_marks_level0 (env : VerityEnv) (st : VerityState) (d : Bytes)
    (pos mra : Nat) (st1 : VerityState) (tr1 : Trace)
    (hpos : pos < env.i_size)
    (hnl : 0 < env.tree_params.num_levels)
    (h : verify_data_block env st d pos mra = (.authentic, st1, tr1)) :
    (∃ pg, env.read_merkle_tree_page
        (step_hpage_idx env (pos >>> env.tree_params.log_blocksize) 0) = some pg) ∧
    st1.checked (step_hpage_idx env (pos >>> env.tree_params.log_blocksize) 0) = true ∧
    (env.has_bitmap = true →
      st1.bitmap (step_hblock_idx env (pos >>> env.tree_params.log_blocksize) 0) = true) ∧
    memcmp_eq (stored_child_hash_at env (pos >>> env.tree_params.log_blocksize) 0) d
      env.tree_params.digest_size = some true := by
  have hsz : ¬ env.i_size ≤ pos := by omega
  unfold verify_data_block at h
  rw [if_neg hsz] at h
  rcases hA : ascend env mra (pos >>> env.tree_params.log_blocksize)
      env.tree_params.num_levels 0 [] st {} with ⟨ares, stA, trA⟩
  rw [hA] at h
  cases ares with
  | ioerr stk =>
    dsimp only at h
    exact VerifyOutcome.noConfusion (Prod.mk.injEq .. ▸ h).1
  | stopped want stk stop =>
    dsimp only at h
    unfold verify_tail at h
    rcases hD : descend env stk want stA trA with ⟨dres, stB, trB⟩
    rw [hD] at h
    cases dres with
    | corrupted l =>
      dsimp only at h
      exact VerifyOutcome.noConfusion (Prod.mk.injEq .. ▸ h).1
    | ioerr =>
      dsimp only at h
      exact VerifyOutcome.noConfusion (Prod.mk.injEq .. ▸ h).1
    | oob =>
      dsimp only at h
      exact VerifyOutcome.noConfusion (Prod.mk.injEq .. ▸ h).1
    | ok w =>
      dsimp only at h
      cases hm : memcmp_eq w d env.tree_params.digest_size with
      | none =>
        rw [hm] at h
        exact VerifyOutcome.noConfusion (Prod.mk.injEq .. ▸ h).1
      | some same =>
        rw [hm] at h
        cases same with
        | false =>
          simp only [Bool.false_eq_true, if_false, Prod.mk.injEq] at h
          exact VerifyOutcome.noConfusion h.1
        | true =>
          simp only [if_true, Prod.mk.injEq] at h
          obtain ⟨-, hstB, htrB⟩ := h
          obtain ⟨r, hr⟩ : ∃ r, env.tree_params.num_levels = r + 1 :=
            ⟨env.tree_params.num_levels - 1, by omega⟩
          rw [hr] at hA
          obtain ⟨hread, hstop0, hckbm⟩ := ascend_state_facts env mra
            (pos >>> env.tree_params.log_blocksize) r st {} want stk stop stA trA
            hr.symm hA
          have hA' : ascend env mra
              (hidx_at env.tree_params (pos >>> env.tree_params.log_blocksize) 0)
              (r + 1) 0 [] st {} = (.stopped want stk stop, stA, trA) := by
            rw [hidx_at_zero]
            exact hA
          obtain ⟨hrange, hq, hf, hwlt, hweq, hstk⟩ := ascend_spec env mra
            (pos >>> env.tree_params.log_blocksize) (r + 1) 0 (by omega)
            [] st {} want stk stop stA trA hA'
          obtain ⟨hwD, hmarks, hcmono, hbmono, hhash⟩ :=
            descend_ok env stk want stA trA w stB trB hD
          rcases Nat.eq_zero_or_pos stop with hs0 | hspos
          · -- the ascent stopped at a verified level-0 block: state unchanged
            obtain ⟨hfix, hchk, hbit⟩ := hstop0 hs0
            subst hs0
            have hstke : stk = [] := by
              simpa using hstk
            subst hstke
            have hwweq : w = want := by
              simpa using hwD
            have hwant : want = stored_child_hash_at env
                (pos >>> env.tree_params.log_blocksize) 0 := hwlt (by omega)
            refine ⟨hread, ?_, ?_, ?_⟩
            · rw [← hstB]
              exact hcmono _ (hfix ▸ hchk)
            · intro hbm
              rw [← hstB]
              exact hbmono _ (hfix ▸ hbit hbm)
            · rw [← hwant, ← hwweq]
              exact hm
          · -- the ascent climbed: level 0 is the last element of the stack
            have hlast : stk.getLast? = some (loc_at env
                (pos >>> env.tree_params.log_blocksize) 0) := by
              rw [hstk, List.append_nil, ← List.range_eq_range']
              exact range_reverse_map_getLast _ stop hspos
            have hmem : loc_at env (pos >>> env.tree_params.log_blocksize) 0 ∈ stk :=
              mem_of_getLast_some _ _ hlast
            have hmark0 := hmarks _ hmem
            have hw0 : w = stored_child_hash_at env
                (pos >>> env.tree_params.log_blocksize) 0 := by
              rw [hwD, hlast]
              rfl
            refine ⟨hread, ?_, ?_, ?_⟩
            · rw [← hstB]
              cases hbm : env.has_bitmap with
              | true => exact hcmono _ (hckbm hbm)
              | false =>
                have hcp := hmark0.2 hbm
                rwa [show (loc_at env (pos >>> env.tree_params.log_blocksize) 0).page
                    = step_hpage_idx env (pos >>> env.tree_params.log_blocksize) 0 from
                    hpage_idx_at_zero env _] at hcp
            · intro hbm
              rw [← hstB]
              have hbp := hmark0.1 hbm
              rwa [show (loc_at env (pos >>> env.tree_params.log_blocksize) 0).index
                  = step_hblock_idx env (pos >>> env.tree_params.log_blocksize) 0 from
                  hblock_idx_at_zero env _] at hbp
            · rw [← hw0]
              exact hm
theorem verify_trusted_level0 (env : VerityEnv) (st : VerityState) (d : Bytes)
    (pos mra : Nat)
    (hpos : pos < env.i_size)
    (hnl : 0 < env.tree_params.num_levels)
    (pg : Bytes)
    (hread : env.read_merkle_tree_page
      (step_hpage_idx env (pos >>> env.tree_params.log_blocksize) 0) = some pg)
    (hchk : st.checked (step_hpage_idx env (pos >>> env.tree_params.log_blocksize) 0) = true)
    (hbit : env.has_bitmap = true →
      st.bitmap (step_hblock_idx env (pos >>> env.tree_params.log_blocksize) 0) = true)
    (hleaf : memcmp_eq (stored_child_hash_at env (pos >>> env.tree_params.log_blocksize) 0)
      d env.tree_params.digest_size = some true) :
    verify_data_block env st d pos mra
      = (.authentic, st,
         { fetches := [(0, step_hpage_idx env (pos >>> env.tree_params.log_blocksize) 0,
                        step_ra env mra (pos >>> env.tree_params.log_blocksize) 0)],
           queries := [(0, true)],
           acq := [step_hpage_idx env (pos >>> env.tree_params.log_blocksize) 0],
           rel := [step_hpage_idx env (pos >>> env.tree_params.log_blocksize) 0],
           hashes := 0, data_maps := 0, data_unmaps := 0, verified := [] }) := by
  have hsz : ¬ env.i_size ≤ pos := by omega
  obtain ⟨r, hr⟩ : ∃ r, env.tree_params.num_levels = r + 1 :=
    ⟨env.tree_params.num_levels - 1, by omega⟩
  have hstored : stored_child_hash_at env (pos >>> env.tree_params.log_blocksize) 0
      = stored_hash env (step_loc env pg (pos >>> env.tree_params.log_blocksize) 0) := by
    have hsc := stored_child_hash_at_eq env (pos >>> env.tree_params.log_blocksize) 0 pg
      (by rw [hpage_idx_at_zero]; exact hread)
    rwa [hidx_at_zero] at hsc
  have hA : ascend env mra (pos >>> env.tree_params.log_blocksize)
      env.tree_params.num_levels 0 [] st {}
      = (.stopped (stored_hash env
            (step_loc env pg (pos >>> env.tree_params.log_blocksize) 0)) [] 0, st,
         { fetches := [(0, step_hpage_idx env (pos >>> env.tree_params.log_blocksize) 0,
                        step_ra env mra (pos >>> env.tree_params.log_blocksize) 0)],
           queries := [(0, true)],
           acq := [step_hpage_idx env (pos >>> env.tree_params.log_blocksize) 0],
           rel := [step_hpage_idx env (pos >>> env.tree_params.log_blocksize) 0],
           hashes := 0, data_maps := 0, data_unmaps := 0, verified := [] }) := by
    rw [hr]
    unfold ascend
    rw [hread]
    simp [is_hbv_of_trusted env st _ _ hchk hbit]
  unfold verify_data_block
  rw [if_neg hsz, hA]
  dsimp only
  unfold verify_tail descend
  dsimp only
  rw [← hstored, hleaf]
  rfl

/-! ## Claim C7 -/

/-- Single-mode one-level example for re-verification: 4-byte blocks,
arity 4, 1-byte digests, one block per page, one hash page whose level-0
block stores the data block's digest 7, which is also the root hash. -/
def wparams : MerkleTreeParams :=
  { log_blocksize := 2, log_arity := 2, log_digestsize := 0, log_blocks_per_page := 0,
    num_levels := 1, level_start := [0], tree_pages := 1, supports_multibuffer := false }

/-- Environment over `wparams`; the hash of a block is the sum of its bytes
mod 256. -/
def wenv : VerityEnv :=
  { tree_params := wparams, root_hash := [7], zero_block_hash := [5],
    has_bitmap := false, i_size := 4,
    read_merkle_tree_page := fun _ => some [7, 0, 0, 0],
    hash_block := fun b => some [b.foldl (fun a c => a + c) 0 % 256] }

/-- Claim C7: a data block that verified as `Authentic` once verifies as
`Authentic` again under the unchanged tracker state and tree contents: the
second run returns the same result and the same final state, computes no
block hashes, and its ascent stops at level 0 — every hash-page fetch and
every `is_hash_block_verified` query of the second run is at level 0, the
query answering `true` because the block's immediate parent hash block is
already marked verified. -/
theorem C7_reverification_stops_at_level0 (env : VerityEnv) (st : VerityState)
    (d : Bytes) (pos mra : Nat) (st1 : VerityState) (tr1 : Trace)
    (h : verify_data_block env st d pos mra = (.authentic, st1, tr1)) :
    ∃ tr2, verify_data_block env st1 d pos mra = (.authentic, st1, tr2) ∧
      tr2.hashes = 0 ∧
      (∀ q ∈ tr2.queries, q = (0, true)) ∧
      (∀ f ∈ tr2.fetches, f.1 = 0) := by
  by_cases hsz : env.i_size ≤ pos
  · unfold verify_data_block at h ⊢
    rw [if_pos hsz] at h ⊢
    cases hm : memcmp_eq env.zero_block_hash d env.tree_params.block_size with
    | none =>
      rw [hm] at h
      exact VerifyOutcome.noConfusion (Prod.mk.injEq .. ▸ h).1
    | some same =>
      rw [hm] at h
      cases same with
      | false =>
        simp only [Bool.false_eq_true, if_false, Prod.mk.injEq] at h
        exact VerifyOutcome.noConfusion h.1
      | true =>
        simp only [if_true, Prod.mk.injEq] at h
        obtain ⟨-, hst, -⟩ := h
        subst hst
        exact ⟨{}, rfl, rfl, by simp, by simp⟩
  · by_cases hnl : 0 < env.tree_params.num_levels
    · obtain ⟨⟨pg, hpg⟩, hchk, hbit, hleaf⟩ := verify_authentic_marks_level0 env st d
        pos mra st1 tr1 (by omega) hnl h
      refine ⟨_, verify_trusted_level0 env st1 d pos mra (by omega) hnl pg hpg hchk
        hbit hleaf, rfl, ?_, ?_⟩
      · intro q hq
        rw [List.mem_singleton] at hq
        exact hq
      · intro f hf
        rw [List.mem_singleton] at hf
        subst hf
        rfl
    · have h0 : env.tree_params.num_levels = 0 := by omega
      unfold verify_data_block at h ⊢
      rw [if_neg hsz] at h ⊢
      rw [h0] at h ⊢
      simp only [ascend] at h ⊢
      unfold verify_tail descend at h ⊢
      dsimp only at h ⊢
      cases hm : memcmp_eq env.root_hash d env.tree_params.digest_size with
      | none =>
        rw [hm] at h
        exact VerifyOutcome.noConfusion (Prod.mk.injEq .. ▸ h).1
      | some same =>
        rw [hm] at h
        cases same with
        | false =>
          simp only [Bool.false_eq_true, if_false, Prod.mk.injEq] at h
          exact VerifyOutcome.noConfusion h.1
        | true =>
          simp only [if_true, Prod.mk.injEq] at h
          obtain ⟨-, hst, -⟩ := h
          subst hst
          exact ⟨{}, rfl, rfl, by simp, by simp⟩

/-- Witness for C7 at the concrete single-mode one-level tree `wenv`: the
first verification of the data block with digest 7 at position 0 is
`Authentic`, and the theorem applied to it settles the re-run. -/
theorem C7_reverification_stops_at_level0_witness :
    ∃ tr2, verify_data_block wenv (verify_data_block wenv zstate [7] 0 0).2.1 [7] 0 0
        = (.authentic, (verify_data_block wenv zstate [7] 0 0).2.1, tr2) ∧
      tr2.hashes = 0 ∧
      (∀ q ∈ tr2.queries, q = (0, true)) ∧
      (∀ f ∈ tr2.fetches, f.1 = 0) :=
  C7_reverification_stops_at_level0 wenv zstate [7] 0 0
    (verify_data_block wenv zstate [7] 0 0).2.1
    (verify_data_block wenv zstate [7] 0 0).2.2 rfl

/-! ## Claim C10 -/

/-- Claim C10: if the requested length is zero, the length or offset is not
block-size aligned, the data page is not locked, or the page is already
uptodate, then `fsverity_verify_blocks` returns `false` having hashed and
verified nothing and leaving the shared verification state untouched (the
whole trace of the call is empty). -/
theorem C10_entry_checks_reject_without_work (env : VerityEnv) (st : VerityState)
    (dp : DataPage) (len offset : Nat)
    (h : len = 0 ∨ (len ||| offset) % env.tree_params.block_size ≠ 0 ∨
         dp.locked = false ∨ dp.uptodate = true) :
    (fsverity_verify_blocks env st dp len offset).1 = false ∧
    (fsverity_verify_blocks env st dp len offset).2.st = st ∧
    (fsverity_verify_blocks env st dp len offset).2.pending = none ∧
    (fsverity_verify_blocks env st dp len offset).2.tr = {} := by
  have key : fsverity_add_data_blocks_mode env env.tree_params.supports_multibuffer
      ⟨st, none, 0, {}⟩ dp len offset = (false, ⟨st, none, 0, {}⟩) := by
    unfold fsverity_add_data_blocks_mode
    by_cases h1 : (len = 0 || !decide ((len ||| offset) % env.tree_params.block_size = 0)) = true
    · simp only [h1, if_true]
    · have h2 : (!dp.locked || dp.uptodate) = true := by
        rcases h with h | h | h | h
        · exact absurd (by simp [h]) h1
        · exact absurd (by simp [h]) h1
        · simp [h]
        · simp [h]
      simp only [h1, if_false, Bool.not_eq_true] at *
      simp [h1, h2]
  have hres : fsverity_verify_blocks env st dp len offset = (false, ⟨st, none, 0, {}⟩) := by
    unfold fsverity_verify_blocks fsverity_verify_blocks_mode
    simp only [key]
    simp [fsverity_abort_verification]
  rw [hres]
  exact ⟨rfl, rfl, rfl, rfl⟩

/-- Witness for C10: a zero-length request on a concrete environment. -/
theorem C10_entry_checks_reject_without_work_witness :
    (fsverity_verify_blocks benv bstate bdp 0 0).1 = false ∧
    (fsverity_verify_blocks benv bstate bdp 0 0).2.st = bstate ∧
    (fsverity_verify_blocks benv bstate bdp 0 0).2.pending = none ∧
    (fsverity_verify_blocks benv bstate bdp 0 0).2.tr = {} :=
  C10_entry_checks_reject_without_work benv bstate bdp 0 0 (Or.inl rfl)

end Fsverity
